import Mathlib

/-!
Shallow embedding of the conversation-normalization pipeline of
`src/app.js` (class `AIChatConverter`).  Parsed JSON values are modeled by
`JValue`; JavaScript exceptions (a TypeError raised by a property access on
null/undefined or by calling a missing method) are modeled by `Except Unit`.
JavaScript `undefined` is collapsed into `JValue.null`: the two are
interchangeable everywhere this program observes them (truthiness checks and
property-access throwing).  Numbers are modeled as rationals (no NaN can
occur among parsed JSON numbers).
-/

set_option maxRecDepth 4000

/-- A parsed JSON value. -/
inductive JValue where
  | null
  | bool (b : Bool)
  | num (q : Rat)
  | str (s : String)
  | arr (elems : List JValue)
  | obj (fields : List (String × JValue))

mutual
/-- Structural equality of parsed-JSON values.  It models the SameValueZero
test of a JS `Set` exactly on primitives (parsed JSON has no NaN and Rat has
no negative zero); two structurally equal objects stand in for the same
object reference (distinct references to equal objects would be conflated,
never the converse). -/
def jbeq : JValue → JValue → Bool
  | .null, .null => true
  | .bool a, .bool b => a == b
  | .num a, .num b => a == b
  | .str a, .str b => a == b
  | .arr xs, .arr ys => jbeqList xs ys
  | .obj fs, .obj gs => jbeqFields fs gs
  | _, _ => false

/-- Element-wise structural equality of value lists. -/
def jbeqList : List JValue → List JValue → Bool
  | [], [] => true
  | x :: xs, y :: ys => jbeq x y && jbeqList xs ys
  | _, _ => false

/-- Field-wise structural equality of object field lists. -/
def jbeqFields : List (String × JValue) → List (String × JValue) → Bool
  | [], [] => true
  | (k, v) :: fs, (k2, v2) :: gs => k == k2 && jbeq v v2 && jbeqFields fs gs
  | _, _ => false
end

instance : BEq JValue := ⟨jbeq⟩

mutual

theorem jbeq_eq : ∀ a b : JValue, jbeq a b = true → a = b := by
  intro a b
  cases a with
  | null =>
      cases b with
      | null => intro h; rfl
      | bool b2 => intro h; exact Bool.noConfusion h
      | num q2 => intro h; exact Bool.noConfusion h
      | str s2 => intro h; exact Bool.noConfusion h
      | arr xs2 => intro h; exact Bool.noConfusion h
      | obj fs2 => intro h; exact Bool.noConfusion h
  | bool b1 =>
      cases b with
      | null => intro h; exact Bool.noConfusion h
      | bool b2 => intro h; exact congrArg JValue.bool (beq_iff_eq.mp h)
      | num q2 => intro h; exact Bool.noConfusion h
      | str s2 => intro h; exact Bool.noConfusion h
      | arr xs2 => intro h; exact Bool.noConfusion h
      | obj fs2 => intro h; exact Bool.noConfusion h
  | num q1 =>
      cases b with
      | null => intro h; exact Bool.noConfusion h
      | bool b2 => intro h; exact Bool.noConfusion h
      | num q2 => intro h; exact congrArg JValue.num (beq_iff_eq.mp h)
      | str s2 => intro h; exact Bool.noConfusion h
      | arr xs2 => intro h; exact Bool.noConfusion h
      | obj fs2 => intro h; exact Bool.noConfusion h
  | str s1 =>
      cases b with
      | null => intro h; exact Bool.noConfusion h
      | bool b2 => intro h; exact Bool.noConfusion h
      | num q2 => intro h; exact Bool.noConfusion h
      | str s2 => intro h; exact congrArg JValue.str (beq_iff_eq.mp h)
      | arr xs2 => intro h; exact Bool.noConfusion h
      | obj fs2 => intro h; exact Bool.noConfusion h
  | arr xs1 =>
      cases b with
      | null => intro h; exact Bool.noConfusion h
      | bool b2 => intro h; exact Bool.noConfusion h
      | num q2 => intro h; exact Bool.noConfusion h
      | str s2 => intro h; exact Bool.noConfusion h
      | arr xs2 => intro h; exact congrArg JValue.arr (jbeqList_eq xs1 xs2 h)
      | obj fs2 => intro h; exact Bool.noConfusion h
  | obj fs1 =>
      cases b with
      | null => intro h; exact Bool.noConfusion h
      | bool b2 => intro h; exact Bool.noConfusion h
      | num q2 => intro h; exact Bool.noConfusion h
      | str s2 => intro h; exact Bool.noConfusion h
      | arr xs2 => intro h; exact Bool.noConfusion h
      | obj fs2 => intro h; exact congrArg JValue.obj (jbeqFields_eq fs1 fs2 h)

theorem jbeqList_eq : ∀ xs ys : List JValue, jbeqList xs ys = true → xs = ys := by
  intro xs ys
  cases xs with
  | nil =>
      cases ys with
      | nil => intro h; rfl
      | cons y ys2 => intro h; exact Bool.noConfusion h
  | cons x xs2 =>
      cases ys with
      | nil => intro h; exact Bool.noConfusion h
      | cons y ys2 =>
          intro h
          have h2 : jbeq x y = true ∧ jbeqList xs2 ys2 = true := by
            have h3 : (jbeq x y && jbeqList xs2 ys2) = true := h
            simpa [Bool.and_eq_true] using h3
          rw [jbeq_eq x y h2.1, jbeqList_eq xs2 ys2 h2.2]

theorem jbeqFields_eq : ∀ fs gs : List (String × JValue),
    jbeqFields fs gs = true → fs = gs := by
  intro fs gs
  cases fs with
  | nil =>
      cases gs with
      | nil => intro h; rfl
      | cons g gs2 => intro h; exact Bool.noConfusion h
  | cons f fs2 =>
      obtain ⟨k, v⟩ := f
      cases gs with
      | nil => intro h; exact Bool.noConfusion h
      | cons g gs2 =>
          obtain ⟨k2, v2⟩ := g
          intro h
          have h2 : ((k == k2) = true ∧ jbeq v v2 = true) ∧ jbeqFields fs2 gs2 = true := by
            have h3 : ((k == k2) && jbeq v v2 && jbeqFields fs2 gs2) = true := h
            simpa [Bool.and_eq_true] using h3
          rw [beq_iff_eq.mp h2.1.1, jbeq_eq v v2 h2.1.2, jbeqFields_eq fs2 gs2 h2.2]

end

mutual

theorem jbeq_refl : ∀ a : JValue, jbeq a a = true := by
  intro a
  cases a with
  | null => rfl
  | bool b => exact beq_self_eq_true b
  | num q => exact beq_self_eq_true q
  | str s => exact beq_self_eq_true s
  | arr xs => exact jbeqList_refl xs
  | obj fs => exact jbeqFields_refl fs

theorem jbeqList_refl : ∀ xs : List JValue, jbeqList xs xs = true := by
  intro xs
  cases xs with
  | nil => rfl
  | cons x xs2 =>
      have h1 := jbeq_refl x
      have h2 := jbeqList_refl xs2
      show (jbeq x x && jbeqList xs2 xs2) = true
      rw [h1, h2]
      rfl

theorem jbeqFields_refl : ∀ fs : List (String × JValue), jbeqFields fs fs = true := by
  intro fs
  cases fs with
  | nil => rfl
  | cons f fs2 =>
      obtain ⟨k, v⟩ := f
      have h1 := jbeq_refl v
      have h2 := jbeqFields_refl fs2
      show ((k == k) && jbeq v v && jbeqFields fs2 fs2) = true
      rw [beq_self_eq_true, h1, h2]
      rfl

end

instance : LawfulBEq JValue where
  eq_of_beq := fun h => jbeq_eq _ _ h
  rfl := jbeq_refl _

/-- Accumulating decimal parser over characters (a structural replacement
for `String.toNat?`, which does not reduce definitionally). -/
def charsToNatAux : List Char → Nat → Option Nat
  | [], acc => some acc
  | c :: cs, acc =>
      if c.isDigit then charsToNatAux cs (acc * 10 + (c.toNat - '0'.toNat))
      else none

/-- Parse a canonical decimal numeral. -/
def strToNat? (s : String) : Option Nat :=
  match s.data with
  | [] => none
  | l => charsToNatAux l 0

/-- Parse an optionally negated decimal numeral (stand-in for JS ToNumber
on the integer strings the program can meet). -/
def strToInt? (s : String) : Option Int :=
  match s.data with
  | [] => none
  | ['-'] => none
  | '-' :: l => (charsToNatAux l 0).map (fun n => -(n : Int))
  | l => (charsToNatAux l 0).map (fun n => (n : Int))

/-- JS `String.prototype.toLowerCase` (ASCII; the non-ASCII case folding JS
also performs does not affect any claim's inputs). -/
def strLower (s : String) : String := String.mk (s.data.map Char.toLower)

/-- JS `String.prototype.startsWith`. -/
def strStarts (s pat : String) : Bool := pat.data.isPrefixOf s.data

/-- Whether `pat` occurs as a contiguous subsequence of `l`. -/
def hasSub : List Char → List Char → Bool
  | [], pat => pat.isEmpty
  | c :: rest, pat => pat.isPrefixOf (c :: rest) || hasSub rest pat

/-- JS `String.prototype.includes`. -/
def strIncludes (s pat : String) : Bool := hasSub s.data pat.data

/-- JavaScript truthiness for parsed-JSON values: null/undefined, `false`,
`0` and `""` are falsy; arrays and objects are always truthy. -/
def jsTruthy : JValue → Bool
  | .null => false
  | .bool b => b
  | .num q => q != 0
  | .str s => s != ""
  | .arr _ => true
  | .obj _ => true

/-- Total named-property read `v[k]`.  Missing properties give undefined
(collapsed to `.null`).  Array and string bases expose `length` and their
canonical numeric index properties; other primitives have no own properties.
Call sites where the base may be null/undefined (where JS would throw) use
`jsGetE` instead. -/
def jsGetD : JValue → String → JValue
  | .obj fs, k => match fs.lookup k with | some v => v | none => .null
  | .arr xs, k =>
      if k = "length" then .num xs.length
      else match strToNat? k with
        | some n => if toString n = k then xs.getD n .null else .null
        | none => .null
  | .str s, k =>
      if k = "length" then .num s.length
      else match strToNat? k with
        | some n =>
            if toString n = k then
              match s.data.get? n with
              | some c => .str (String.mk [c])
              | none => .null
            else .null
        | none => .null
  | _, _ => .null

/-- Property read with JS throwing semantics: reading any property of
null/undefined raises a TypeError. -/
def jsGetE (v : JValue) (k : String) : Except Unit JValue :=
  match v with
  | .null => .error ()
  | w => .ok (jsGetD w k)

/-- Decimal rendering of a rational, used where JS coerces a number to a
string.  Integers render exactly; non-integers (which no claim exercises)
render as num/den rather than JS decimal notation. -/
def ratToString (q : Rat) : String :=
  if q.den = 1 then toString q.num else toString q.num ++ "/" ++ toString q.den

mutual
/-- JS ToString coercion on parsed-JSON values (used by `Array.prototype.join`
and by property-key coercion). -/
def jsToString : JValue → String
  | .null => "null"
  | .bool b => cond b "true" "false"
  | .num q => ratToString q
  | .str s => s
  | .arr xs => jsToStringElems xs
  | .obj _ => "[object Object]"

/-- One array element under `Array.prototype.join`: null/undefined render
empty, other elements via ToString. -/
def jsToStringElem : JValue → String
  | .null => ""
  | .bool b => cond b "true" "false"
  | .num q => ratToString q
  | .str s => s
  | .arr ys => jsToStringElems ys
  | .obj _ => "[object Object]"

/-- `Array.prototype.toString`: elements joined with commas. -/
def jsToStringElems : List JValue → String
  | [] => ""
  | [x] => jsToStringElem x
  | x :: y :: xs => jsToStringElem x ++ "," ++ jsToStringElems (y :: xs)
end

/-- JS ToPropertyKey: the string key used when a value indexes an object
(`mapping[currentNode]`). -/
def jsPropKey : JValue → String
  | .str s => s
  | v => jsToString v

/-- `Object.keys`: own enumerable property names — field names for objects,
index strings for arrays and strings, empty for other primitives. -/
def objKeys : JValue → List String
  | .obj fs => fs.map Prod.fst
  | .arr xs => (List.range xs.length).map toString
  | .str s => (List.range s.length).map toString
  | _ => []

/-- Strict equality `v === 'lit'` of a value against a string literal. -/
def JValue.eqStr : JValue → String → Bool
  | .str t, s => t == s
  | _, _ => false

/-- Whether a value is a string (`typeof v === 'string'`). -/
def JValue.isStr : JValue → Bool
  | .str _ => true
  | _ => false

/-- The underlying string of a string value (default ""). -/
def JValue.asStr : JValue → String
  | .str s => s
  | _ => ""

/-- JS `String.prototype.trim` (built from character lists so that its
idempotence is provable; the extra Unicode space characters JS also strips
do not occur in any claim's inputs). -/
def jsTrim (s : String) : String :=
  String.mk ((((s.data.dropWhile Char.isWhitespace).reverse).dropWhile Char.isWhitespace).reverse)

/-- Value of a JS `a || b || ...` chain whose consumers treat all falsy
results alike (each call site where the JS chain would instead yield its
last falsy operand is noted there). -/
def firstTruthy : List JValue → JValue
  | [] => .null
  | v :: vs => if jsTruthy v then v else firstTruthy vs

/-- The call `header.includes('Gemini')` (app.js 129): substring test on a
string receiver, membership test on an array receiver, TypeError on any
other truthy receiver. -/
def includesGeminiE : JValue → Except Unit Bool
  | .str s => .ok (strIncludes s "Gemini")
  | .arr xs => .ok (xs.any (fun x => x.eqStr "Gemini"))
  | _ => .error ()

/-- The read `v.length` (arrays and strings have real lengths; a plain
object may carry a literal length field). -/
def jsLengthVal (v : JValue) : JValue := jsGetD v "length"

/-- JS `x > 0` after ToNumber coercion, as used on a length value: numbers
compare directly, integer strings coerce, everything else (the NaN cases)
compares false. -/
def jsGtZero : JValue → Bool
  | .num q => 0 < q
  | .str s => match strToInt? s with | some n => 0 < n | none => false
  | .bool b => b
  | _ => false

/-- The element read `v[0]`. -/
def jsIdx0 (v : JValue) : JValue := jsGetD v "0"

/-- Minimal JSON string escaping of one character (backslash and double
quote; control characters do not occur in any claim's inputs). -/
def escapeChar (c : Char) : List Char :=
  if c = '\\' then ['\\', '\\'] else if c = '"' then ['\\', '"'] else [c]

/-- Minimal JSON string escaping. -/
def escapeJson (s : String) : String := String.mk (s.data.flatMap escapeChar)

mutual
/-- `JSON.stringify` on parsed-JSON values (used by parseMessage's `message`
fallback; JS float formatting is approximated by `ratToString`). -/
def jsonStringify : JValue → String
  | .null => "null"
  | .bool b => cond b "true" "false"
  | .num q => ratToString q
  | .str s => "\"" ++ escapeJson s ++ "\""
  | .arr xs => "[" ++ jsonStringifyArr xs ++ "]"
  | .obj fs => "\x7b" ++ jsonStringifyObj fs ++ "\x7d"

/-- Comma-separated stringification of array elements. -/
def jsonStringifyArr : List JValue → String
  | [] => ""
  | [x] => jsonStringify x
  | x :: y :: xs => jsonStringify x ++ "," ++ jsonStringifyArr (y :: xs)

/-- Comma-separated stringification of object fields. -/
def jsonStringifyObj : List (String × JValue) → String
  | [] => ""
  | [(k, v)] => "\"" ++ escapeJson k ++ "\":" ++ jsonStringify v
  | (k, v) :: f :: fs =>
      "\"" ++ escapeJson k ++ "\":" ++ jsonStringify v ++ "," ++ jsonStringifyObj (f :: fs)
end

/-- parseTimestamp (app.js 616-637).  Dates are represented by their
epoch-millisecond value; `none` is the JS null result ("unknown").
`parseDateStr` stands for the host's `new Date(string)` parser (`none` =
Invalid Date).  The `value instanceof Date` branch is unreachable from
parsed JSON and is therefore not represented. -/
def parseTimestamp (parseDateStr : String → Option Rat) (value : JValue) : Option Rat :=
  if !jsTruthy value then none
  else match value with
    | .num q => some (if 9999999999 < q then q else q * 1000)
    | .str s => parseDateStr s
    | _ => none

/-- `new Date(value)` for a truthy parsed-JSON argument (app.js 333):
numbers are epoch milliseconds, strings go through the host date parser,
and other truthy values are coerced by ToPrimitive first — a boolean to its
number, an array or object to its ToString, which is then parsed as a date
string.  The falsy null case is unreachable (all call sites guard on
truthiness). -/
def jsNewDate (parseDateStr : String → Option Rat) : JValue → Option Rat
  | .num q => some q
  | .str s => parseDateStr s
  | .bool b => some (cond b 1 0)
  | .arr xs => parseDateStr (jsToString (.arr xs))
  | .obj _ => parseDateStr "[object Object]"
  | .null => none

/-- Canonical message record pushed by the parsers.  Role and content keep
their JS values: they are strings on every well-shaped path, but e.g. the
timestamp-sort fallback of parseMapping can pass a non-string author role
through unchanged. -/
structure Message where
  role : JValue
  content : JValue
  timestamp : Option Rat

/-- The raw role value picked by parseMessage's precedence chain
(app.js 561-569): the first truthy of `role`, `author` (itself when a
string, else its `.role` defaulting to user), `sender`, `from`, with ""
when none is truthy. -/
def rawRoleValue (msg : JValue) : JValue :=
  if jsTruthy (jsGetD msg "role") then jsGetD msg "role"
  else if jsTruthy (jsGetD msg "author") then
    (let author := jsGetD msg "author"
     if author.isStr then author
     else if jsTruthy (jsGetD author "role") then jsGetD author "role" else .str "user")
  else if jsTruthy (jsGetD msg "sender") then jsGetD msg "sender"
  else if jsTruthy (jsGetD msg "from") then jsGetD msg "from"
  else .str ""

/-- Role-resolution block of parseMessage (app.js 560-577): raw precedence
value, lowercasing (a TypeError when the resolved role is a truthy
non-string), and synonym collapsing. -/
def resolveRole (msg : JValue) : Except Unit String :=
  match rawRoleValue msg with
  | .str s =>
      .ok (if strLower s = "model" ∨ strLower s = "gemini" ∨ strLower s = "ai" ∨ strLower s = "bot" then
             "assistant"
           else if strLower s = "human" then "user" else strLower s)
  | _ => .error ()

/-- The `content.parts` filter+join of parseMessage (app.js 584-587): keep
entries that are plain strings or have a truthy `.text`, map to their text,
join with newline.  Reading `.text` of a null entry raises a TypeError; the
join coerces a non-string text via `jsToString`. -/
def joinContentParts : List JValue → Except Unit (List String)
  | [] => .ok []
  | p :: ps =>
      match p with
      | .null => .error ()
      | q =>
          match joinContentParts ps with
          | .error err => .error err
          | .ok rest =>
              if q.isStr || jsTruthy (jsGetD q "text") then
                .ok ((match q with | .str s => s | w => jsToString (jsGetD w "text")) :: rest)
              else .ok rest

/-- The top-level `parts` filter+join of parseMessage (app.js 592-595):
keep entries with truthy `.text` or plain strings, map via `p.text || p`,
join with newline. -/
def joinTopParts : List JValue → Except Unit (List String)
  | [] => .ok []
  | p :: ps =>
      match p with
      | .null => .error ()
      | q =>
          match joinTopParts ps with
          | .error err => .error err
          | .ok rest =>
              if jsTruthy (jsGetD q "text") || q.isStr then
                .ok ((let t := jsGetD q "text"; jsToString (if jsTruthy t then t else q)) :: rest)
              else .ok rest

/-- Content-resolution block of parseMessage (app.js 579-600).  Returns the
value of the local `content` variable; the TypeError cases (`.filter` on a
truthy non-array parts value, `.text` of a null parts entry) become
errors. -/
def resolveContent (msg : JValue) : Except Unit JValue :=
  if jsTruthy (jsGetD msg "content") then
    match jsGetD msg "content" with
    | .str s => .ok (.str s)
    | c =>
      if jsTruthy (jsGetD c "parts") then
        match jsGetD c "parts" with
        | .arr l =>
            (match joinContentParts l with
             | .error err => .error err
             | .ok parts => .ok (.str (String.intercalate "\n" parts)))
        | _ => .error ()
      else if jsTruthy (jsGetD c "text") then .ok (jsGetD c "text")
      else .ok (.str "")
  else if jsTruthy (jsGetD msg "parts") then
    match jsGetD msg "parts" with
    | .arr l =>
        (match joinTopParts l with
         | .error err => .error err
         | .ok parts => .ok (.str (String.intercalate "\n" parts)))
    | _ => .error ()
  else if jsTruthy (jsGetD msg "text") then .ok (jsGetD msg "text")
  else if jsTruthy (jsGetD msg "message") then
    (match jsGetD msg "message" with
     | .str s => .ok (.str s)
     | m => .ok (.str (jsonStringify m)))
  else .ok (.str "")

/-- parseMessage (app.js 553-614): one raw record to a canonical message,
or `none` ("not a message") when the resolved content trims to empty.  The
final `content.trim()` raises a TypeError when the resolved content is a
truthy non-string (a non-string `content.text` / `text` field). -/
def parseMessage (parseDateStr : String → Option Rat) (msg : JValue) :
    Except Unit (Option Message) :=
  if !jsTruthy msg then .ok none
  else
    match resolveRole msg with
    | .error err => .error err
    | .ok role =>
        match resolveContent msg with
        | .error err => .error err
        | .ok (.str s) =>
            if jsTrim s = "" then .ok none
            else .ok (some { role := .str (if role = "" then "user" else role),
                             content := .str (jsTrim s),
                             timestamp := parseTimestamp parseDateStr
                               (firstTruthy [jsGetD msg "create_time", jsGetD msg "created_at",
                                             jsGetD msg "timestamp", jsGetD msg "time",
                                             jsGetD msg "date"]) })
        | .ok _ => .error ()

/-- The optional-chained author role `msg.author?.role` (app.js 493). -/
def optAuthorRole (msg : JValue) : JValue :=
  match jsGetD msg "author" with
  | .null => .null
  | a => jsGetD a "role"

/-- The `msg.content || \x7b\x7d` default of the walk body (app.js 494). -/
def contentOrEmpty (msg : JValue) : JValue :=
  if jsTruthy (jsGetD msg "content") then jsGetD msg "content" else .obj []

/-- The `content.parts || []` default of the walk body (app.js 495). -/
def nodeParts (msg : JValue) : JValue :=
  if jsTruthy (jsGetD (contentOrEmpty msg) "parts") then jsGetD (contentOrEmpty msg) "parts"
  else .arr []

/-- The filtered (plain strings only), newline-joined, trimmed text of a
parts array (app.js 496). -/
def partsText (l : List JValue) : String :=
  jsTrim (String.intercalate "\n" ((l.filter JValue.isStr).map JValue.asStr))

/-- Per-node message extraction of the leaf-chain walk (app.js 490-505);
a truthy non-array parts value makes `.filter` throw. -/
def chainNodeMsg (parseDateStr : String → Option Rat) (node : JValue) :
    Except Unit (Option Message) :=
  if jsTruthy (jsGetD node "message") then
    match nodeParts (jsGetD node "message") with
    | .arr l =>
        if ((optAuthorRole (jsGetD node "message")).eqStr "user" ||
            (optAuthorRole (jsGetD node "message")).eqStr "assistant") && partsText l != "" then
          .ok (some { role := .str (if (optAuthorRole (jsGetD node "message")).eqStr "assistant"
                                      then "assistant" else "user"),
                      content := .str (partsText l),
                      timestamp := parseTimestamp parseDateStr
                        (jsGetD (jsGetD node "message") "create_time") })
        else .ok none
    | _ => .error ()
  else .ok none

/-- The leaf-chain loop of parseMapping (app.js 487-508), guarded by the
visited set `seen` of raw pointer values (`seen.has(current)` stores the
value itself, not the coerced property key, so a node indexed by both the
number 1 and the string "1" is visited once per pointer value); `jbeq`
stands in for the Set's SameValueZero test.  The structural fuel stands for
the loop's termination argument: every iteration after the first consumes a
previously unvisited parent pointer value of the mapping, of which there
are at most as many as the mapping has keys, so the key count plus one can
never run out.  Collects newest-first. -/
def walkChain (parseDateStr : String → Option Rat) (mapping : JValue) :
    Nat → List JValue → JValue → Except Unit (List Message)
  | 0, _, _ => .ok []
  | fuel+1, seen, current =>
      if jsTruthy current && jsTruthy (jsGetD mapping (jsPropKey current)) &&
         !seen.contains current then
        match chainNodeMsg parseDateStr (jsGetD mapping (jsPropKey current)) with
        | .error err => .error err
        | .ok entry =>
            match walkChain parseDateStr mapping fuel (current :: seen)
                    (jsGetD (jsGetD mapping (jsPropKey current)) "parent") with
            | .error err => .error err
            | .ok rest => .ok ((match entry with | some m => [m] | none => []) ++ rest)
      else .ok []

/-- Field read on the spread record `(\x7b id, ...mapping[id] \x7d)` built by
the fallback mode (app.js 520): spreading copies an object's own enumerable
fields, so the read is total even when the underlying node value is null or
primitive (a string or array spread contributes only index fields, never
the one key — "message" — read from these records). -/
def spreadGetD (v : JValue) (k : String) : JValue :=
  match v with
  | .obj fs => (match fs.lookup k with | some w => w | none => .null)
  | _ => .null

/-- ToNumber coercion used by the fallback sort comparator: numbers pass
through, integer strings coerce, anything else (a NaN case, whose JS sort
order is unspecified) is mapped to 0. -/
def numCoerce : JValue → Rat
  | .num q => q
  | .str s => match strToInt? s with | some n => (n : Rat) | none => 0
  | _ => 0

/-- Sort key of the fallback mode (app.js 524-525): `message.create_time || 0`. -/
def sortKeyVal (n : JValue) : Rat :=
  let t := jsGetD (spreadGetD n "message") "create_time"
  numCoerce (if jsTruthy t then t else .num 0)

/-- Stable insertion of one element behind the existing elements with a
strictly smaller key: on key ties the inserted element (which precedes the
already-sorted ones in the original order) comes first, as JS stable sort
requires. -/
def insertByKey (x : JValue) : List JValue → List JValue
  | [] => [x]
  | y :: ys => if sortKeyVal y < sortKeyVal x then y :: insertByKey x ys else x :: y :: ys

/-- Stable ascending insertion sort by `sortKeyVal` (JS Array.prototype.sort
is required to be stable). -/
def sortByKey : List JValue → List JValue
  | [] => []
  | x :: xs => insertByKey x (sortByKey xs)

/-- Content extraction of the fallback loop body (app.js 532-539): string
parts joined with newline, or a string content, or "". -/
def fallbackContent (msg : JValue) : Except Unit String :=
  if jsTruthy (jsGetD (jsGetD msg "content") "parts") then
    match jsGetD (jsGetD msg "content") "parts" with
    | .arr l => .ok (String.intercalate "\n" ((l.filter JValue.isStr).map JValue.asStr))
    | _ => .error ()
  else match jsGetD msg "content" with
    | .str s => .ok s
    | _ => .ok ""

/-- The fallback role `msg.author.role || 'user'` (app.js 531). -/
def fallbackRole (msg : JValue) : JValue :=
  if jsTruthy (jsGetD (jsGetD msg "author") "role") then jsGetD (jsGetD msg "author") "role"
  else .str "user"

/-- One node of the fallback loop: the message pushed for it, if any
(app.js 528-547). -/
def fallbackNodeMsg (parseDateStr : String → Option Rat) (n : JValue) :
    Except Unit (Option Message) :=
  if jsTruthy (jsGetD (spreadGetD n "message") "author") &&
     jsTruthy (jsGetD (spreadGetD n "message") "content") then
    match fallbackContent (spreadGetD n "message") with
    | .error err => .error err
    | .ok content =>
        if jsTrim content != "" && !(fallbackRole (spreadGetD n "message")).eqStr "system" then
          .ok (some { role := if (fallbackRole (spreadGetD n "message")).eqStr "assistant" ||
                                 (fallbackRole (spreadGetD n "message")).eqStr "model" then
                                JValue.str "assistant"
                              else fallbackRole (spreadGetD n "message"),
                      content := .str (jsTrim content),
                      timestamp := parseTimestamp parseDateStr
                        (jsGetD (spreadGetD n "message") "create_time") })
        else .ok none
  else .ok none

/-- The forEach of the fallback mode, pushing per-node messages
(app.js 528-548). -/
def fallbackLoop (parseDateStr : String → Option Rat) :
    List JValue → List Message → Except Unit (List Message)
  | [], acc => .ok acc
  | n :: rest, acc =>
      match fallbackNodeMsg parseDateStr n with
      | .error err => .error err
      | .ok (some m) => fallbackLoop parseDateStr rest (acc ++ [m])
      | .ok none => fallbackLoop parseDateStr rest acc

/-- Fallback sort mode of parseMapping (app.js 516-548): nodes with a
truthy message and content, sorted ascending by raw creation time, roles
normalized and `system` excluded. -/
def fallbackMessages (parseDateStr : String → Option Rat) (mapping : JValue) :
    Except Unit (List Message) :=
  let nodes := (objKeys mapping).map (fun id => jsGetD mapping id)
  let withMsg := nodes.filter (fun n =>
    jsTruthy (spreadGetD n "message") && jsTruthy (jsGetD (spreadGetD n "message") "content"))
  fallbackLoop parseDateStr (sortByKey withMsg) []

/-- parseMapping (app.js 476-551): the leaf-chain walk from `current_node`
(reversed to oldest-first at the end), or the fallback timestamp sort when
the leaf pointer is absent or unresolvable. -/
def parseMapping (parseDateStr : String → Option Rat) (mapping currentNode : JValue) :
    Except Unit (List Message) :=
  if jsTruthy currentNode && jsTruthy (jsGetD mapping (jsPropKey currentNode)) then
    match walkChain parseDateStr mapping ((objKeys mapping).length + 1) [] currentNode with
    | .error err => .error err
    | .ok chain => .ok chain.reverse
  else fallbackMessages parseDateStr mapping

/-- Detected originating service. -/
inductive SourceKind where
  | ai
  | gemini
  | chatgpt
deriving DecidableEq

/-- Canonical conversation record; `isChatGPT` models the `_isChatGPT`
marker set by the graph-mapping path. -/
structure Conversation where
  id : JValue
  title : JValue
  createTime : Option Rat
  updateTime : Option Rat
  messages : List Message
  isChatGPT : Bool

/-- First loop of extractConversationIdFromMapping (app.js 260-269): the
first node holding a user message with text content.  Reading `.message` of
a null mapping value raises a TypeError. -/
def findFirstUserNode (mapping : JValue) : List String → Except Unit (Option String)
  | [] => .ok none
  | id :: rest =>
      match jsGetE (jsGetD mapping id) "message" with
      | .error err => .error err
      | .ok msg =>
          if jsTruthy msg &&
             jsTruthy (jsGetD msg "author") &&
             (jsGetD (jsGetD msg "author") "role").eqStr "user" &&
             jsTruthy (jsGetD msg "content") &&
             (jsGetD (jsGetD msg "content") "content_type").eqStr "text" then
            .ok (some id)
          else findFirstUserNode mapping rest

/-- extractConversationIdFromMapping (app.js 256-279): first user-message
node id, else the first id that is not a synthetic client root, else null. -/
def extractConversationIdFromMapping (mapping : JValue) : Except Unit JValue :=
  let nodeIds := objKeys mapping
  match findFirstUserNode mapping nodeIds with
  | .error err => .error err
  | .ok (some id) => .ok (.str id)
  | .ok none =>
      match nodeIds.find? (fun id => id ≠ "client-created-root" && !strStarts id "client-") with
      | some id => .ok (.str id)
      | none => .ok .null

/-- The forEach body over a message container array: parseMessage per
element, pushing each non-null result (app.js 238-243). -/
def parseMessageList (parseDateStr : String → Option Rat) :
    List JValue → Except Unit (List Message)
  | [] => .ok []
  | x :: xs =>
      match parseMessage parseDateStr x with
      | .error err => .error err
      | .ok r =>
          match parseMessageList parseDateStr xs with
          | .error err => .error err
          | .ok rest => .ok ((match r with | some m => [m] | none => []) ++ rest)

/-- Conversation id resolution of parseArrayFormat (app.js 210-220): the
root-level id fields, then `current_node`, then extraction from the
mapping. -/
def resolveConversationId (conv idField : JValue) : Except Unit JValue :=
  let cid0 := firstTruthy [idField, jsGetD conv "conversation_id",
                           jsGetD conv "chat_id", jsGetD conv "uuid"]
  let cid1 := if !jsTruthy cid0 && jsTruthy (jsGetD conv "current_node") then
                jsGetD conv "current_node" else cid0
  if !jsTruthy cid1 && jsTruthy (jsGetD conv "mapping") then
    extractConversationIdFromMapping (jsGetD conv "mapping")
  else .ok cid1

/-- The per-record body of parseArrayFormat's forEach (app.js 207-249).
Returns `none` when the record is dropped by the retention check
(`messages.length > 0 || conv.title`).  Reading `.id` of a null element
raises a TypeError. -/
def parseArrayConv (parseDateStr : String → Option Rat) (index : Nat) (conv : JValue) :
    Except Unit (Option Conversation) :=
  match jsGetE conv "id" with
  | .error err => .error err
  | .ok idField =>
      match resolveConversationId conv idField with
      | .error err => .error err
      | .ok cid2 =>
          if jsTruthy (jsGetD conv "mapping") then
            match parseMapping parseDateStr (jsGetD conv "mapping") (jsGetD conv "current_node") with
            | .error err => .error err
            | .ok msgs =>
                .ok (if msgs.length > 0 || jsTruthy (jsGetD conv "title") then
                  some { id := if jsTruthy cid2 then cid2
                               else .str ("conversation_" ++ toString (index + 1)),
                         title := if jsTruthy (jsGetD conv "title") then jsGetD conv "title"
                                  else if jsTruthy (jsGetD conv "name") then jsGetD conv "name"
                                  else .str ("会話 " ++ toString (index + 1)),
                         createTime := parseTimestamp parseDateStr
                           (firstTruthy [jsGetD conv "create_time", jsGetD conv "created_at",
                                         jsGetD conv "created", jsGetD conv "timestamp"]),
                         updateTime := parseTimestamp parseDateStr
                           (firstTruthy [jsGetD conv "update_time", jsGetD conv "updated_at",
                                         jsGetD conv "updated", jsGetD conv "modified"]),
                         messages := msgs, isChatGPT := true }
                  else none)
          else
            match (match firstTruthy [jsGetD conv "messages", jsGetD conv "mapping",
                                      jsGetD conv "content", jsGetD conv "history"] with
                   | .arr l => parseMessageList parseDateStr l
                   | _ => .ok []) with
            | .error err => .error err
            | .ok msgs =>
                .ok (if msgs.length > 0 || jsTruthy (jsGetD conv "title") then
                  some { id := if jsTruthy cid2 then cid2
                               else .str ("conversation_" ++ toString (index + 1)),
                         title := if jsTruthy (jsGetD conv "title") then jsGetD conv "title"
                                  else if jsTruthy (jsGetD conv "name") then jsGetD conv "name"
                                  else .str ("会話 " ++ toString (index + 1)),
                         createTime := parseTimestamp parseDateStr
                           (firstTruthy [jsGetD conv "create_time", jsGetD conv "created_at",
                                         jsGetD conv "created", jsGetD conv "timestamp"]),
                         updateTime := parseTimestamp parseDateStr
                           (firstTruthy [jsGetD conv "update_time", jsGetD conv "updated_at",
                                         jsGetD conv "updated", jsGetD conv "modified"]),
                         messages := msgs, isChatGPT := false }
                  else none)

/-- The forEach of parseArrayFormat from a given index: retained records in
order. -/
def parseArrayFormatFrom (parseDateStr : String → Option Rat) :
    Nat → List JValue → Except Unit (List Conversation)
  | _, [] => .ok []
  | i, c :: rest =>
      match parseArrayConv parseDateStr i c with
      | .error err => .error err
      | .ok r =>
          match parseArrayFormatFrom parseDateStr (i + 1) rest with
          | .error err => .error err
          | .ok rs => .ok ((match r with | some conv => [conv] | none => []) ++ rs)

/-- parseArrayFormat (app.js 206-250). -/
def parseArrayFormat (parseDateStr : String → Option Rat) (l : List JValue) :
    Except Unit (List Conversation) :=
  parseArrayFormatFrom parseDateStr 0 l

/-- The per-record body of parseTakeoutFormat's forEach (app.js 284-304).
The message container `chat.messages || chat.contents || chat.turns || []`
is iterated without an array check: a truthy non-array container has no
forEach and raises a TypeError. -/
def parseTakeoutChat (parseDateStr : String → Option Rat) (index : Nat) (chat : JValue) :
    Except Unit (Option Conversation) :=
  match jsGetE chat "id" with
  | .error err => .error err
  | .ok idField =>
      let convId := if jsTruthy idField then idField else .str ("chat_" ++ toString (index + 1))
      let title :=
        if jsTruthy (jsGetD chat "title") then jsGetD chat "title"
        else if jsTruthy (jsGetD chat "name") then jsGetD chat "name"
        else .str ("会話 " ++ toString (index + 1))
      let createTime := parseTimestamp parseDateStr
        (firstTruthy [jsGetD chat "createTime", jsGetD chat "created"])
      let updateTime := parseTimestamp parseDateStr
        (firstTruthy [jsGetD chat "updateTime", jsGetD chat "modified"])
      let container := firstTruthy [jsGetD chat "messages", jsGetD chat "contents",
                                    jsGetD chat "turns"]
      match (match container with
             | .arr l => parseMessageList parseDateStr l
             | .null => .ok []
             | _ => .error ()) with
      | .error err => .error err
      | .ok msgs =>
          .ok (if msgs.length > 0 then
            some { id := convId, title := title, createTime := createTime,
                   updateTime := updateTime, messages := msgs, isChatGPT := false }
            else none)

/-- The forEach of parseTakeoutFormat from a given index. -/
def parseTakeoutFrom (parseDateStr : String → Option Rat) :
    Nat → List JValue → Except Unit (List Conversation)
  | _, [] => .ok []
  | i, c :: rest =>
      match parseTakeoutChat parseDateStr i c with
      | .error err => .error err
      | .ok r =>
          match parseTakeoutFrom parseDateStr (i + 1) rest with
          | .error err => .error err
          | .ok rs => .ok ((match r with | some conv => [conv] | none => []) ++ rs)

/-- parseTakeoutFormat (app.js 281-305); non-array input returns nothing. -/
def parseTakeoutFormat (parseDateStr : String → Option Rat) (chats : JValue) :
    Except Unit (List Conversation) :=
  match chats with
  | .arr l => parseTakeoutFrom parseDateStr 0 l
  | _ => .ok []

/-- Character-level body of `replaceFirst`. -/
def replaceFirstChars (pat repl : List Char) : List Char → List Char
  | [] => if pat.isEmpty then repl else []
  | c :: rest =>
      if pat.isPrefixOf (c :: rest) then repl ++ (c :: rest).drop pat.length
      else c :: replaceFirstChars pat repl rest

/-- JS `String.prototype.replace` with a string pattern: replaces only the
first (leftmost) occurrence. -/
def replaceFirst (s pat repl : String) : String :=
  String.mk (replaceFirstChars pat.data repl.data s.data)

/-- stripHtml (app.js 371-391) at the JS level: falsy input gives "", a
string goes through the regex chain (abstracted as `stripHtmlText`, a
parameter: no claim depends on the text it produces, so every theorem below
holds for an arbitrary such function), and a truthy non-string receiver
makes `.replace` throw. -/
def stripHtmlE (stripHtmlText : String → String) (html : JValue) : Except Unit String :=
  if !jsTruthy html then .ok ""
  else match html with
    | .str s => .ok (stripHtmlText s)
    | _ => .error ()

/-- The user-message extraction of an activity entry (app.js 318-324): a
string title is stripped of the literal prefix and trimmed, or taken
verbatim; `.startsWith` of a truthy non-string title throws. -/
def activityUserMessage (titleF : JValue) : Except Unit String :=
  if jsTruthy titleF then
    match titleF with
    | JValue.str s =>
        .ok (if strStarts s "送信したメッセージ:" then
               jsTrim (replaceFirst s "送信したメッセージ:" "")
             else s)
    | _ => .error ()
  else .ok ""

/-- The assistant-response extraction of an activity entry (app.js 327-330):
the first safeHtmlItem entry's html through stripHtml; reading `.html` of a
null first entry throws. -/
def activityAiResponse (stripHtmlText : String → String) (activity : JValue) :
    Except Unit String :=
  if jsTruthy (jsGetD activity "safeHtmlItem") &&
     jsGtZero (jsLengthVal (jsGetD activity "safeHtmlItem")) then
    match jsGetE (jsIdx0 (jsGetD activity "safeHtmlItem")) "html" with
    | .error err => .error err
    | .ok html => stripHtmlE stripHtmlText (if jsTruthy html then html else .str "")
  else .ok ""

/-- The shared timestamp of an activity entry (app.js 333). -/
def activityTimestamp (parseDateStr : String → Option Rat) (activity : JValue) : Option Rat :=
  if jsTruthy (jsGetD activity "time") then jsNewDate parseDateStr (jsGetD activity "time")
  else none

/-- The synthesized conversation title (app.js 338): user text truncated to
50 characters with an ellipsis, defaulting to a placeholder when empty. -/
def activityTitle (index : Nat) (userMessage : String) : String :=
  if userMessage.take 50 ++ (if userMessage.length > 50 then "..." else "") ≠ "" then
    userMessage.take 50 ++ (if userMessage.length > 50 then "..." else "")
  else "会話 " ++ toString (index + 1)

/-- The messages pushed for one activity entry (app.js 345-360): the user
text verbatim when truthy, and the trimmed assistant response when its trim
is truthy. -/
def activityMsgs (userMessage aiResponse : String) (timestamp : Option Rat) : List Message :=
  (if userMessage ≠ "" then
     [{ role := JValue.str "user", content := JValue.str userMessage,
        timestamp := timestamp }]
   else [])
  ++ (if jsTrim aiResponse ≠ "" then
        [{ role := JValue.str "assistant", content := JValue.str (jsTrim aiResponse),
           timestamp := timestamp }]
      else [])

/-- The per-entry body of parseGeminiActivityFormat's forEach
(app.js 317-365); `index` counts in the processed (reversed, oldest-first)
order.  Reading `.title` of a null entry throws. -/
def parseActivityEntry (parseDateStr : String → Option Rat)
    (stripHtmlText : String → String) (index : Nat) (activity : JValue) :
    Except Unit (Option Conversation) :=
  match jsGetE activity "title" with
  | .error err => .error err
  | .ok titleF =>
      match activityUserMessage titleF with
      | .error err => .error err
      | .ok userMessage =>
          match activityAiResponse stripHtmlText activity with
          | .error err => .error err
          | .ok aiResponse =>
              if (activityMsgs userMessage aiResponse
                    (activityTimestamp parseDateStr activity)).length > 0 then
                .ok (some
                  { id := JValue.str ("gemini_activity_" ++ toString (index + 1)),
                    title := JValue.str (activityTitle index userMessage),
                    createTime := activityTimestamp parseDateStr activity,
                    updateTime := activityTimestamp parseDateStr activity,
                    messages := activityMsgs userMessage aiResponse
                      (activityTimestamp parseDateStr activity),
                    isChatGPT := false })
              else .ok none

/-- The forEach of parseGeminiActivityFormat from a given index. -/
def parseActivityFrom (parseDateStr : String → Option Rat)
    (stripHtmlText : String → String) :
    Nat → List JValue → Except Unit (List Conversation)
  | _, [] => .ok []
  | i, c :: rest =>
      match parseActivityEntry parseDateStr stripHtmlText i c with
      | .error err => .error err
      | .ok r =>
          match parseActivityFrom parseDateStr stripHtmlText (i + 1) rest with
          | .error err => .error err
          | .ok rs => .ok ((match r with | some conv => [conv] | none => []) ++ rs)

/-- parseGeminiActivityFormat (app.js 311-366): entries processed in
reversed (oldest-first) order; non-array input returns nothing. -/
def parseGeminiActivityFormat (parseDateStr : String → Option Rat)
    (stripHtmlText : String → String) (activities : JValue) :
    Except Unit (List Conversation) :=
  match activities with
  | .arr l => parseActivityFrom parseDateStr stripHtmlText 0 l.reverse
  | _ => .ok []

/-- parseSingleConversation (app.js 393-413).  As in the Takeout format the
container `data.messages || data.content || data.history || []` is iterated
without an array check. -/
def parseSingleConversation (parseDateStr : String → Option Rat) (data : JValue) :
    Except Unit (List Conversation) :=
  match jsGetE data "id" with
  | .error err => .error err
  | .ok idField =>
      let convId := if jsTruthy idField then idField else JValue.str "conversation_1"
      let title :=
        if jsTruthy (jsGetD data "title") then jsGetD data "title"
        else if jsTruthy (jsGetD data "name") then jsGetD data "name"
        else JValue.str "会話"
      let createTime := parseTimestamp parseDateStr
        (firstTruthy [jsGetD data "create_time", jsGetD data "created_at"])
      let updateTime := parseTimestamp parseDateStr
        (firstTruthy [jsGetD data "update_time", jsGetD data "updated_at"])
      let container := firstTruthy [jsGetD data "messages", jsGetD data "content",
                                    jsGetD data "history"]
      match (match container with
             | .arr l => parseMessageList parseDateStr l
             | .null => .ok []
             | _ => .error ()) with
      | .error err => .error err
      | .ok msgs =>
          .ok (if msgs.length > 0 then
            [{ id := convId, title := title, createTime := createTime,
               updateTime := updateTime, messages := msgs, isChatGPT := false }]
            else [])

/-- The inner parts loop of parseApiFormat (app.js 429-437).  Reading
`.text` of a null parts entry raises a TypeError; a truthy `part.text` is
pushed as content unchanged (and untrimmed). -/
def apiParts (role : JValue) : List JValue → Except Unit (List Message)
  | [] => .ok []
  | p :: ps =>
      match jsGetE p "text" with
      | .error err => .error err
      | .ok t =>
          match apiParts role ps with
          | .error err => .error err
          | .ok rest =>
              if jsTruthy t then
                .ok ({ role := if role.eqStr "model" then JValue.str "assistant" else role,
                       content := t, timestamp := none } :: rest)
              else .ok rest

/-- The contents loop of parseApiFormat (app.js 425-438). -/
def apiContents : List JValue → Except Unit (List Message)
  | [] => .ok []
  | c :: cs =>
      match jsGetE c "role" with
      | .error err => .error err
      | .ok roleF =>
          let role := if jsTruthy roleF then roleF else JValue.str "user"
          let partsF := jsGetD c "parts"
          match (if jsTruthy partsF then
                   match partsF with
                   | .arr ps => apiParts role ps
                   | _ => .error ()
                 else .ok []) with
          | .error err => .error err
          | .ok msgs =>
              match apiContents cs with
              | .error err => .error err
              | .ok rest => .ok (msgs ++ rest)

/-- parseApiFormat (app.js 415-443); `now` models the two `new Date()`
calls.  `data.contents.forEach` raises a TypeError on a truthy non-array
contents value. -/
def parseApiFormat (now : Rat) (data : JValue) : Except Unit (List Conversation) :=
  match jsGetE data "contents" with
  | .error err => .error err
  | .ok contentsF =>
      match (match contentsF with
             | .arr l => apiContents l
             | _ => .error ()) with
      | .error err => .error err
      | .ok msgs =>
          .ok (if msgs.length > 0 then
            [{ id := JValue.str "api_conversation_1", title := JValue.str "会話",
               createTime := some now, updateTime := some now, messages := msgs,
               isChatGPT := false }]
            else [])

/-- Key-name trigger of the generic scan (app.js 461-464). -/
def keyTriggers (key : String) : Bool :=
  let k := strLower key
  strIncludes k "conversation" || strIncludes k "chat" ||
  strIncludes k "message" || strIncludes k "history"

mutual
/-- findConversations of parseGenericFormat (app.js 447-473): depth-first
scan of the object graph; a non-empty array whose first element looks like
a conversation is parsed directly (and the scan of it stops), otherwise
every property value is visited (arrays enumerate their index keys). -/
def findConversations (parseDateStr : String → Option Rat) :
    JValue → Except Unit (List Conversation)
  | .arr (x :: xs) =>
      if jsTruthy x && (jsTruthy (jsGetD x "messages") || jsTruthy (jsGetD x "content") ||
                        jsTruthy (jsGetD x "parts") || jsTruthy (jsGetD x "role")) then
        parseArrayFormat parseDateStr (x :: xs)
      else findEntriesArr parseDateStr 0 (x :: xs)
  | .arr [] => .ok []
  | .obj fs => findEntriesObj parseDateStr fs
  | _ => .ok []

/-- Key loop of findConversations over object fields (app.js 459-470). -/
def findEntriesObj (parseDateStr : String → Option Rat) :
    List (String × JValue) → Except Unit (List Conversation)
  | [] => .ok []
  | (k, v) :: rest =>
      match (if keyTriggers k then
               match v with
               | .arr l => parseArrayFormat parseDateStr l
               | _ => .ok []
             else .ok []) with
      | .error err => .error err
      | .ok hit =>
          match findConversations parseDateStr v with
          | .error err => .error err
          | .ok sub =>
              match findEntriesObj parseDateStr rest with
              | .error err => .error err
              | .ok more => .ok (hit ++ sub ++ more)

/-- Key loop of findConversations over array elements (index keys never
contain the trigger words, but the check is kept for fidelity). -/
def findEntriesArr (parseDateStr : String → Option Rat) :
    Nat → List JValue → Except Unit (List Conversation)
  | _, [] => .ok []
  | i, v :: rest =>
      match (if keyTriggers (toString i) then
               match v with
               | .arr l => parseArrayFormat parseDateStr l
               | _ => .ok []
             else .ok []) with
      | .error err => .error err
      | .ok hit =>
          match findConversations parseDateStr v with
          | .error err => .error err
          | .ok sub =>
              match findEntriesArr parseDateStr (i + 1) rest with
              | .error err => .error err
              | .ok more => .ok (hit ++ sub ++ more)
end

/-- parseGenericFormat (app.js 445-474). -/
def parseGenericFormat (parseDateStr : String → Option Rat) (data : JValue) :
    Except Unit (List Conversation) :=
  findConversations parseDateStr data

/-- Gemini-indicative file name substrings (app.js 180-185). -/
def geminiFilePatterns : List String :=
  ["myactivity.json", "マイアクティビティ.json", "my_activity.json", "gemini"]

/-- ChatGPT-indicative file name substrings (app.js 188-191). -/
def chatgptFilePatterns : List String := ["conversations.json", "chatgpt"]

/-- detectSourceFromFileName (app.js 174-204). -/
def detectSourceFromFileName (fileName : String) : SourceKind :=
  if fileName = "" then .ai
  else
    let lowerName := strLower fileName
    if geminiFilePatterns.any (fun p => strIncludes lowerName (strLower p)) then .gemini
    else if chatgptFilePatterns.any (fun p => strIncludes lowerName (strLower p)) then .chatgpt
    else .ai

/-- Format dispatch of parseConversations (app.js 126-163), before the
ChatGPT post-pass. -/
def dispatchFormats (parseDateStr : String → Option Rat)
    (stripHtmlText : String → String) (now : Rat) (src0 : SourceKind)
    (jsonData : JValue) : Except Unit (SourceKind × List Conversation) :=
  match jsonData with
  | .arr (x :: xs) =>
      (match jsGetE x "header" with
       | .error err => .error err
       | .ok header =>
           match (if jsTruthy header then includesGeminiE header else .ok false) with
           | .error err => .error err
           | .ok isActivity =>
               if isActivity then
                 match parseGeminiActivityFormat parseDateStr stripHtmlText (.arr (x :: xs)) with
                 | .error err => .error err
                 | .ok convs => .ok (SourceKind.gemini, convs)
               else if jsTruthy (jsGetD x "mapping") then
                 match parseArrayFormat parseDateStr (x :: xs) with
                 | .error err => .error err
                 | .ok convs => .ok (SourceKind.chatgpt, convs)
               else
                 match parseArrayFormat parseDateStr (x :: xs) with
                 | .error err => .error err
                 | .ok convs => .ok (src0, convs))
  | .arr [] =>
      (match parseArrayFormat parseDateStr [] with
       | .error err => .error err
       | .ok convs => .ok (src0, convs))
  | _ =>
      (match jsGetE jsonData "conversations" with
       | .error err => .error err
       | .ok conversationsF =>
           if jsTruthy conversationsF then
             match (match conversationsF with
                    | .arr l => parseArrayFormat parseDateStr l
                    | _ => .error ()) with
             | .error err => .error err
             | .ok convs => .ok (src0, convs)
           else if jsTruthy (jsGetD jsonData "chats") || jsTruthy (jsGetD jsonData "history") then
             match parseTakeoutFormat parseDateStr
                     (if jsTruthy (jsGetD jsonData "chats") then jsGetD jsonData "chats"
                      else jsGetD jsonData "history") with
             | .error err => .error err
             | .ok convs => .ok (SourceKind.gemini, convs)
           else if jsTruthy (jsGetD jsonData "messages") || jsTruthy (jsGetD jsonData "content") then
             match parseSingleConversation parseDateStr jsonData with
             | .error err => .error err
             | .ok convs => .ok (src0, convs)
           else if jsTruthy (jsGetD jsonData "contents") then
             match parseApiFormat now jsonData with
             | .error err => .error err
             | .ok convs => .ok (SourceKind.gemini, convs)
           else
             match parseGenericFormat parseDateStr jsonData with
             | .error err => .error err
             | .ok convs => .ok (src0, convs))

/-- parseConversations (app.js 119-169): file-name detection, format
dispatch, per-format parsing, and the ChatGPT post-pass.  Returns the
detected source and conversation list; `.error` models an uncaught
TypeError (the caller's catch-all turns it into a generic failure). -/
def parseConversations (parseDateStr : String → Option Rat)
    (stripHtmlText : String → String) (now : Rat) (fileName : String)
    (jsonData : JValue) : Except Unit (SourceKind × List Conversation) :=
  let src0 := detectSourceFromFileName fileName
  match dispatchFormats parseDateStr stripHtmlText now src0 jsonData with
  | .error err => .error err
  | .ok result =>
      let finalSrc := if result.1 = SourceKind.ai && result.2.any (fun c => c.isChatGPT) then
                        SourceKind.chatgpt else result.1
      .ok (finalSrc, result.2)


/-! Basic lemmas about the string helpers. -/

/-- Dropping while a predicate holds is idempotent. -/
theorem dropWhile_self_idem {α} (p : α → Bool) (l : List α) :
    (l.dropWhile p).dropWhile p = l.dropWhile p := by
  induction l with
  | nil => rfl
  | cons x xs ih =>
      by_cases h : p x = true
      · simp [List.dropWhile_cons, h, ih]
      · simp [List.dropWhile_cons, h]

/-- The head surviving a dropWhile does not satisfy the predicate. -/
theorem dropWhile_head_false {α} (p : α → Bool) (l : List α) (x : α) (xs : List α)
    (h : l.dropWhile p = x :: xs) : p x = false := by
  induction l with
  | nil => simp [List.dropWhile] at h
  | cons y ys ih =>
      rw [List.dropWhile_cons] at h
      by_cases hy : p y = true
      · rw [if_pos hy] at h; exact ih h
      · rw [if_neg hy] at h
        injection h with h1 h2
        subst h1
        simpa using hy

/-- Character-level core of jsTrim idempotence. -/
theorem trim_aux (p : Char → Bool) (l m r : List Char)
    (hm : m = l.dropWhile p) (hr : r = (m.reverse.dropWhile p).reverse) :
    ((r.dropWhile p).reverse.dropWhile p).reverse = r := by
  have hsplit : r ++ (m.reverse.takeWhile p).reverse = m := by
    have h2 := congrArg List.reverse (List.takeWhile_append_dropWhile (p := p) (l := m.reverse))
    rw [List.reverse_append, List.reverse_reverse] at h2
    rw [hr]; exact h2
  have hstep : r.dropWhile p = r := by
    cases hx : r with
    | nil => rfl
    | cons a r' =>
        have hma : m = a :: (r' ++ (m.reverse.takeWhile p).reverse) := by
          rw [hx] at hsplit
          simpa using hsplit.symm
        have hpa : p a = false :=
          dropWhile_head_false p l a _ (by rw [← hm]; exact hma)
        rw [List.dropWhile_cons, if_neg (by simp [hpa])]
  have hrrev : r.reverse = m.reverse.dropWhile p := by
    rw [hr, List.reverse_reverse]
  rw [hstep, hrrev, dropWhile_self_idem, ← hrrev, List.reverse_reverse]

/-- jsTrim is idempotent. -/
theorem jsTrim_idem (s : String) : jsTrim (jsTrim s) = jsTrim s := by
  unfold jsTrim
  exact congrArg String.mk
    (trim_aux Char.isWhitespace s.data (s.data.dropWhile Char.isWhitespace)
      (((s.data.dropWhile Char.isWhitespace).reverse).dropWhile Char.isWhitespace).reverse
      rfl rfl)

/-! Claim C10: parseTimestamp on falsy input. -/

/-- A trivial host date parser, used to instantiate closed statements. -/
def pdsNone : String → Option Rat := fun _ => none

/-- A trivial HTML-stripping text function, used to instantiate closed
statements. -/
def shxId : String → String := fun s => s

/-- C10: parseTimestamp returns unknown (JS null) for every falsy input —
including the number 0 and the empty string — under any host date parser,
so the valid epoch instant 0 is reported as unknown. -/
theorem claim10_falsy_unknown (parseDateStr : String → Option Rat) (value : JValue)
    (h : jsTruthy value = false) : parseTimestamp parseDateStr value = none := by
  unfold parseTimestamp
  simp [h]

/-- Witness: the epoch value 0 itself is mapped to unknown. -/
theorem claim10_witness : parseTimestamp pdsNone (.num 0) = none :=
  claim10_falsy_unknown pdsNone (.num 0) (by decide)

/-! Claim C7: the millisecond/second decision boundary. -/

/-- C7 counterexample: the numeric input 0 is not interpreted as a second
epoch (it yields unknown, refuting the claim's "for every numeric input"),
and the two documented boundary examples resolve to exactly the same
instant — not to times roughly 13 years apart. -/
theorem claim7_counterexample :
    parseTimestamp pdsNone (.num 0) = none ∧
    parseTimestamp pdsNone (.num 1700000000) = parseTimestamp pdsNone (.num 1700000000000) := by
  constructor
  · rfl
  · show parseTimestamp pdsNone (.num 1700000000) = parseTimestamp pdsNone (.num 1700000000000)
    norm_num [parseTimestamp, jsTruthy]

/-- C7 amended: for every nonzero numeric input the value is taken as
milliseconds exactly when it exceeds 9999999999 and as seconds (times 1000)
otherwise; the 10-digit example 1700000000 and the 13-digit example
1700000000000 both resolve to the instant 1700000000000 ms
(2023-11-14T22:13:20Z) — the same instant, not 13 years apart. -/
theorem claim7_amended (parseDateStr : String → Option Rat) (q : Rat) (hq : q ≠ 0) :
    parseTimestamp parseDateStr (.num q)
      = some (if 9999999999 < q then q else q * 1000) ∧
    parseTimestamp parseDateStr (.num 1700000000) = some 1700000000000 ∧
    parseTimestamp parseDateStr (.num 1700000000000) = some 1700000000000 := by
  refine ⟨?_, ?_, ?_⟩
  · unfold parseTimestamp
    simp [jsTruthy, bne, hq]
  · norm_num [parseTimestamp, jsTruthy]
  · norm_num [parseTimestamp, jsTruthy]

/-- Witness for the amended C7 at the nonzero input 5. -/
theorem claim7_witness :
    parseTimestamp pdsNone (.num 5)
      = some (if 9999999999 < (5 : Rat) then (5 : Rat) else 5 * 1000) ∧
    parseTimestamp pdsNone (.num 1700000000) = some 1700000000000 ∧
    parseTimestamp pdsNone (.num 1700000000000) = some 1700000000000 :=
  claim7_amended pdsNone 5 (by norm_num)

/-! Claim C2: role resolution of parseMessage. -/

/-- Amended role-resolution rule: the raw precedence value (first truthy of
`role`, `author` — itself when a string, else its `.role` defaulting to
user —, `sender`, `from`); lowercase it; collapse model/gemini/ai/bot to
assistant and human to user; an empty resolution defaults to user; any
other value passes through as-is (`none` marks a truthy non-string
resolution, on which the parser throws instead). -/
def specResolveRole (msg : JValue) : Option String :=
  match rawRoleValue msg with
  | .str s =>
      some (if strLower s = "model" ∨ strLower s = "gemini" ∨ strLower s = "ai" ∨ strLower s = "bot" then
              "assistant"
            else if strLower s = "human" then "user"
            else if strLower s = "" then "user" else strLower s)
  | _ => none

/-- The code's role block together with the final `role || 'user'` default
agrees with the amended rule. -/
theorem resolveRole_spec (msg : JValue) (role : String)
    (h : resolveRole msg = .ok role) :
    specResolveRole msg = some (if role = "" then "user" else role) := by
  unfold resolveRole at h
  unfold specResolveRole
  split at h
  case h_1 s heq =>
    injection h with hrole
    subst hrole
    by_cases h1 : strLower s = "model" ∨ strLower s = "gemini" ∨ strLower s = "ai" ∨ strLower s = "bot"
    · simp [h1]
    · by_cases h2 : strLower s = "human"
      · simp [h1, h2]
      · simp [h1, h2]
  case h_2 => exact absurd h (by simp)

/-- C2 amended: the role of every message parseMessage returns is governed
by the precedence chain with lowercasing, the synonym collapse
(model/gemini/ai/bot to assistant, human to user), and the empty-resolution
default to user; an unrecognized role such as "system" passes through
unchanged, so returned roles are not limited to user/assistant. -/
theorem claim2_amended (parseDateStr : String → Option Rat) (msg : JValue) (m : Message)
    (h : parseMessage parseDateStr msg = .ok (some m)) :
    ∃ r, specResolveRole msg = some r ∧ m.role = .str r := by
  unfold parseMessage at h
  split at h
  · simp at h
  · split at h
    case h_1 => simp at h
    case h_2 role hrole =>
      split at h
      case h_1 => simp at h
      case h_3 => simp at h
      case h_2 s hcontent =>
        refine ⟨if role = "" then "user" else role, resolveRole_spec msg role hrole, ?_⟩
        by_cases hrr : role = ""
        · simp only [hrr, if_true, reduceIte] at h ⊢
          split at h
          · simp at h
          · injection h with h1
            injection h1 with h2
            rw [← h2]
        · simp only [hrr, if_false, reduceIte] at h ⊢
          split at h
          · simp at h
          · injection h with h1
            injection h1 with h2
            rw [← h2]

/-- C2 counterexample: the record with role "system" is returned with role
"system" — an unrecognized value is not collapsed to user (or assistant),
refuting the claim that every returned Message has role user or
assistant. -/
theorem claim2_counterexample :
    parseMessage pdsNone (.obj [("role", .str "system"), ("content", .str "hi")])
      = .ok (some { role := .str "system", content := .str "hi", timestamp := none }) ∧
    ("system" : String) ≠ "user" ∧ ("system" : String) ≠ "assistant" :=
  ⟨rfl, by decide, by decide⟩

/-- A record whose role "MODEL" collapses to assistant. -/
def msgModelC2 : JValue := .obj [("role", .str "MODEL"), ("content", .str "x")]

/-- The message parsed from `msgModelC2`. -/
def parsedModelC2 : Message :=
  { role := .str "assistant", content := .str "x", timestamp := none }

/-- Witness for the amended C2: the uppercase synonym "MODEL" resolves to
assistant via the rule. -/
theorem claim2_witness :
    ∃ r, specResolveRole msgModelC2 = some r ∧ parsedModelC2.role = .str r :=
  claim2_amended pdsNone msgModelC2 parsedModelC2 rfl

/-! Claim C6: content resolution of parseMessage. -/

/-- Unfolding step of `joinContentParts` on a non-null head. -/
theorem joinContentParts_cons_nonnull (p : JValue) (ps : List JValue)
    (h : (p matches .null) = false) :
    joinContentParts (p :: ps) =
      (match joinContentParts ps with
       | .error err => .error err
       | .ok rest =>
          if p.isStr || jsTruthy (jsGetD p "text") then
            .ok ((if p.isStr then p.asStr else jsToString (jsGetD p "text")) :: rest)
          else .ok rest) := by
  cases p <;> simp_all [joinContentParts, JValue.isStr, JValue.asStr]

/-- The recursive content-parts join equals its filter/map/join form. -/
theorem joinContentParts_eq (l : List JValue) :
    joinContentParts l =
      (if l.any (fun p => p matches .null) then .error ()
       else .ok ((l.filter (fun p => p.isStr || jsTruthy (jsGetD p "text"))).map
         (fun p => if p.isStr then p.asStr else jsToString (jsGetD p "text")))) := by
  induction l with
  | nil => rfl
  | cons p ps ih =>
      by_cases hnull : (p matches .null) = true
      · have hp : p = .null := by cases p <;> simp_all
        subst hp
        simp [joinContentParts, List.any_cons]
      · rw [joinContentParts_cons_nonnull p ps (by simpa using hnull)]
        rw [ih]
        by_cases hps : ps.any (fun x => (x matches .null : Bool))
        · simp [hps, List.any_cons]
        · by_cases hkeep : (p.isStr || jsTruthy (jsGetD p "text")) = true
          · simp [hps, hkeep, List.any_cons, hnull, List.filter_cons]
          · simp [hps, hkeep, List.any_cons, hnull, List.filter_cons]

/-- Unfolding step of `joinTopParts` on a non-null head. -/
theorem joinTopParts_cons_nonnull (p : JValue) (ps : List JValue)
    (h : (p matches .null) = false) :
    joinTopParts (p :: ps) =
      (match joinTopParts ps with
       | .error err => .error err
       | .ok rest =>
          if jsTruthy (jsGetD p "text") || p.isStr then
            .ok (jsToString (if jsTruthy (jsGetD p "text") then jsGetD p "text" else p) :: rest)
          else .ok rest) := by
  cases p <;> simp_all [joinTopParts]

/-- The recursive top-level parts join equals its filter/map/join form. -/
theorem joinTopParts_eq (l : List JValue) :
    joinTopParts l =
      (if l.any (fun p => p matches .null) then .error ()
       else .ok ((l.filter (fun p => jsTruthy (jsGetD p "text") || p.isStr)).map
         (fun p => jsToString (if jsTruthy (jsGetD p "text") then jsGetD p "text" else p)))) := by
  induction l with
  | nil => rfl
  | cons p ps ih =>
      by_cases hnull : (p matches .null) = true
      · have hp : p = .null := by cases p <;> simp_all
        subst hp
        simp [joinTopParts, List.any_cons]
      · rw [joinTopParts_cons_nonnull p ps (by simpa using hnull)]
        rw [ih]
        by_cases hps : ps.any (fun x => (x matches .null : Bool))
        · simp [hps, List.any_cons]
        · by_cases hkeep : (jsTruthy (jsGetD p "text") || p.isStr) = true
          · simp [hps, hkeep, List.any_cons, hnull, List.filter_cons]
          · simp [hps, hkeep, List.any_cons, hnull, List.filter_cons]

/-- Spec-side content-parts rule: entries that are plain strings or have a truthy text field, mapped to their text, joined with newline (a null entry throws). -/
def specJoinContentParts (l : List JValue) : Except Unit String :=
  if l.any (fun p => p matches .null) then .error ()
  else .ok (String.intercalate "\n"
    ((l.filter (fun p => p.isStr || jsTruthy (jsGetD p "text"))).map
      (fun p => if p.isStr then p.asStr else jsToString (jsGetD p "text"))))

/-- Spec-side top-level parts rule: entries with a truthy text field or plain strings, mapped via text-or-entry, joined with newline (a null entry throws). -/
def specJoinTopParts (l : List JValue) : Except Unit String :=
  if l.any (fun p => p matches .null) then .error ()
  else .ok (String.intercalate "\n"
    ((l.filter (fun p => jsTruthy (jsGetD p "text") || p.isStr)).map
      (fun p => jsToString (if jsTruthy (jsGetD p "text") then jsGetD p "text" else p))))

/-- Amended content-resolution precedence, written from the corrected
spec: string content; otherwise, for a truthy content value, its parts
(filter/join rule), then its text, then empty — resolution stops at a
truthy content and never falls through to later fields; only when content
is falsy are the top-level parts, text and message (stringified when not a
string) consulted. -/
def specContentResolve (msg : JValue) : Except Unit JValue :=
  if jsTruthy (jsGetD msg "content") then
    (if (jsGetD msg "content").isStr then .ok (jsGetD msg "content")
     else if jsTruthy (jsGetD (jsGetD msg "content") "parts") then
       (match jsGetD (jsGetD msg "content") "parts" with
        | .arr l =>
            (match specJoinContentParts l with
             | .error err => .error err
             | .ok s => .ok (.str s))
        | _ => .error ())
     else if jsTruthy (jsGetD (jsGetD msg "content") "text") then
       .ok (jsGetD (jsGetD msg "content") "text")
     else .ok (.str ""))
  else if jsTruthy (jsGetD msg "parts") then
    (match jsGetD msg "parts" with
     | .arr l =>
         (match specJoinTopParts l with
          | .error err => .error err
          | .ok s => .ok (.str s))
     | _ => .error ())
  else if jsTruthy (jsGetD msg "text") then .ok (jsGetD msg "text")
  else if jsTruthy (jsGetD msg "message") then
    (if (jsGetD msg "message").isStr then .ok (jsGetD msg "message")
     else .ok (.str (jsonStringify (jsGetD msg "message"))))
  else .ok (.str "")

/-- C6 amended: the content block of parseMessage computes exactly the
amended precedence for every input record. -/
theorem claim6_amended (msg : JValue) : resolveContent msg = specContentResolve msg := by
  unfold resolveContent specContentResolve
  by_cases h1 : jsTruthy (jsGetD msg "content") = true
  · rw [if_pos h1, if_pos h1]
    cases hc : jsGetD msg "content" with
    | null => rw [hc] at h1; simp [jsTruthy] at h1
    | str s => simp [JValue.isStr]
    | _ => ?_
    all_goals {
      simp only [JValue.isStr, Bool.false_eq_true, if_false]
      split
      · split
        · rename_i hp l heq
          rw [joinContentParts_eq]
          unfold specJoinContentParts
          by_cases hn : l.any (fun p => (p matches JValue.null : Bool))
          · simp [hn]
          · simp [hn]
        · rfl
      · rfl
    }
  · rw [if_neg h1, if_neg h1]
    by_cases h2 : jsTruthy (jsGetD msg "parts") = true
    · rw [if_pos h2, if_pos h2]
      split
      · rename_i l heq
        rw [joinTopParts_eq]
        unfold specJoinTopParts
        by_cases hn : l.any (fun p => (p matches JValue.null : Bool))
        · simp [hn]
        · simp [hn]
      · rfl
    · rw [if_neg h2, if_neg h2]
      by_cases h3 : jsTruthy (jsGetD msg "text") = true
      · rw [if_pos h3, if_pos h3]
      · rw [if_neg h3, if_neg h3]
        by_cases h4 : jsTruthy (jsGetD msg "message") = true
        · rw [if_pos h4, if_pos h4]
          cases hm : jsGetD msg "message" <;> simp [JValue.isStr]
        · rw [if_neg h4, if_neg h4]

/-- C6 counterexample: a truthy content object with neither parts nor text
stops resolution with empty content — the message is dropped — instead of
continuing to the later fields of the precedence list (the claim would
resolve the text field "hello" here). -/
theorem claim6_counterexample :
    resolveContent (.obj [("content", .obj [("foo", .num 1)]), ("text", .str "hello")])
      = .ok (.str "") ∧
    parseMessage pdsNone (.obj [("content", .obj [("foo", .num 1)]), ("text", .str "hello")])
      = .ok none :=
  ⟨rfl, rfl⟩

/-! Claim C9: non-empty trimmed content of produced messages. -/

/-- Every message parseMessage returns has non-empty trimmed string content. -/
theorem parseMessage_content_trimmed (pds : String → Option Rat) (msg : JValue) (m : Message)
    (h : parseMessage pds msg = .ok (some m)) :
    ∃ s, m.content = .str s ∧ s ≠ "" ∧ jsTrim s = s := by
  unfold parseMessage at h
  split at h
  · simp at h
  · split at h
    case h_1 => simp at h
    case h_2 role hrole =>
      split at h
      case h_1 => simp at h
      case h_3 => simp at h
      case h_2 s hcontent =>
        split at h
        · simp at h
        · injection h with h1
          injection h1 with h2
          exact ⟨jsTrim s, by rw [← h2], by assumption, jsTrim_idem s⟩

/-- Every message the leaf-chain walk extracts has non-empty trimmed content. -/
theorem chainNodeMsg_trimmed (pds : String → Option Rat) (node : JValue) (m : Message)
    (h : chainNodeMsg pds node = .ok (some m)) :
    ∃ s, m.content = .str s ∧ s ≠ "" ∧ jsTrim s = s := by
  unfold chainNodeMsg at h
  split at h
  · split at h
    case h_1 l hl =>
      split at h
      case isTrue hguard =>
        injection h with h1
        injection h1 with h2
        refine ⟨partsText l, by rw [← h2], ?_, ?_⟩
        · have := ((Bool.and_eq_true _ _).mp hguard).2
          simpa [bne] using this
        · unfold partsText
          exact jsTrim_idem _
      case isFalse => simp at h
    case h_2 => simp at h
  · simp at h

/-- Every message collected by the walk has non-empty trimmed content. -/
theorem walkChain_mem_trimmed (pds : String → Option Rat) (mapping : JValue) :
    ∀ (fuel : Nat) (seen : List JValue) (current : JValue) (l : List Message) (m : Message),
      walkChain pds mapping fuel seen current = .ok l → m ∈ l →
      ∃ s, m.content = .str s ∧ s ≠ "" ∧ jsTrim s = s := by
  intro fuel
  induction fuel with
  | zero =>
      intro seen current l m h hm
      injection h with h1
      subst h1
      simp at hm
  | succ fuel ih =>
      intro seen current l m h hm
      unfold walkChain at h
      split at h
      · split at h
        · simp at h
        · case h_2 entry hentry =>
            split at h
            · simp at h
            · case h_2 rest hrest =>
                injection h with h1
                subst h1
                rcases List.mem_append.mp hm with hml | hmr
                · cases entry with
                  | none => simp at hml
                  | some m' =>
                      simp at hml
                      subst hml
                      exact chainNodeMsg_trimmed pds _ m hentry
                · exact ih _ _ _ m hrest hmr
      · injection h with h1
        subst h1
        simp at hm

/-- Every message the fallback loop pushes has non-empty trimmed content. -/
theorem fallbackNodeMsg_trimmed (pds : String → Option Rat) (n : JValue) (m : Message)
    (h : fallbackNodeMsg pds n = .ok (some m)) :
    ∃ s, m.content = .str s ∧ s ≠ "" ∧ jsTrim s = s := by
  unfold fallbackNodeMsg at h
  split at h
  · split at h
    · simp at h
    · case h_2 content hcontent =>
        split at h
        case isTrue hguard =>
          injection h with h1
          injection h1 with h2
          refine ⟨jsTrim content, by rw [← h2], ?_, jsTrim_idem _⟩
          have := ((Bool.and_eq_true _ _).mp hguard).1
          simpa [bne] using this
        case isFalse => simp at h
  · simp at h

/-- Messages of the fallback loop are from the accumulator or have non-empty trimmed content. -/
theorem fallbackLoop_mem_trimmed (pds : String → Option Rat) :
    ∀ (ns : List JValue) (acc : List Message) (l : List Message) (m : Message),
      fallbackLoop pds ns acc = .ok l → m ∈ l →
      m ∈ acc ∨ ∃ s, m.content = .str s ∧ s ≠ "" ∧ jsTrim s = s := by
  intro ns
  induction ns with
  | nil =>
      intro acc l m h hm
      injection h with h1
      subst h1
      exact Or.inl hm
  | cons n rest ih =>
      intro acc l m h hm
      unfold fallbackLoop at h
      split at h
      · simp at h
      · case h_2 m' hm' =>
          rcases ih _ _ m h hm with hacc | hgood
          · rcases List.mem_append.mp hacc with h1 | h2
            · exact Or.inl h1
            · right
              simp at h2
              subst h2
              exact fallbackNodeMsg_trimmed pds n m hm'
          · exact Or.inr hgood
      · case h_3 => exact ih _ _ m h hm

/-- Every message parseMapping returns has non-empty trimmed content. -/
theorem parseMapping_mem_trimmed (pds : String → Option Rat)
    (mapping currentNode : JValue) (l : List Message) (m : Message)
    (h : parseMapping pds mapping currentNode = .ok l) (hm : m ∈ l) :
    ∃ s, m.content = .str s ∧ s ≠ "" ∧ jsTrim s = s := by
  unfold parseMapping at h
  split at h
  · split at h
    · simp at h
    · case h_2 chain hchain =>
        injection h with h1
        subst h1
        exact walkChain_mem_trimmed pds mapping _ _ _ _ m hchain (List.mem_reverse.mp hm)
  · unfold fallbackMessages at h
    rcases fallbackLoop_mem_trimmed pds _ _ _ m h hm with hacc | hgood
    · simp at hacc
    · exact hgood

/-- Every assistant message of a retained activity conversation has non-empty trimmed content. -/
theorem parseActivityEntry_assistant_trimmed (pds : String → Option Rat)
    (shx : String → String) (i : Nat) (a : JValue) (c : Conversation) (m : Message)
    (h : parseActivityEntry pds shx i a = .ok (some c)) (hm : m ∈ c.messages)
    (hrole : m.role = .str "assistant") :
    ∃ s, m.content = .str s ∧ s ≠ "" ∧ jsTrim s = s := by
  unfold parseActivityEntry at h
  split at h
  · simp at h
  · split at h
    · simp at h
    · case h_2 userMessage huser =>
        split at h
        · simp at h
        · case h_2 aiResponse hai =>
            split at h
            case isFalse => simp at h
            case isTrue hlen =>
              injection h with h1
              injection h1 with h2
              rw [← h2] at hm
              unfold activityMsgs at hm
              rcases List.mem_append.mp hm with h1 | h2
              · by_cases hu : userMessage ≠ ""
                · rw [if_pos hu] at h1
                  simp at h1
                  rw [h1] at hrole
                  injection hrole with hr
                  exact absurd hr (by decide)
                · rw [if_neg hu] at h1
                  simp at h1
              · by_cases hv : jsTrim aiResponse ≠ ""
                · rw [if_pos hv] at h2
                  simp at h2
                  subst h2
                  exact ⟨jsTrim aiResponse, rfl, hv, jsTrim_idem _⟩
                · rw [if_neg hv] at h2
                  simp at h2

/-- C9 amended: messages produced by parseMessage and by parseMapping (both
walk and fallback modes) always have non-empty trimmed content, and so do
the assistant messages of the Gemini activity parser; the activity parser's
user messages are the exception the counterexample exhibits (a verbatim
whitespace-only title is pushed untrimmed). -/
theorem claim9_amended (pds : String → Option Rat) (shx : String → String) :
    (∀ (msg : JValue) (m : Message), parseMessage pds msg = .ok (some m) →
       ∃ s, m.content = .str s ∧ s ≠ "" ∧ jsTrim s = s) ∧
    (∀ (mapping currentNode : JValue) (l : List Message) (m : Message),
       parseMapping pds mapping currentNode = .ok l → m ∈ l →
       ∃ s, m.content = .str s ∧ s ≠ "" ∧ jsTrim s = s) ∧
    (∀ (i : Nat) (a : JValue) (c : Conversation) (m : Message),
       parseActivityEntry pds shx i a = .ok (some c) → m ∈ c.messages →
       m.role = .str "assistant" →
       ∃ s, m.content = .str s ∧ s ≠ "" ∧ jsTrim s = s) :=
  ⟨fun msg m h => parseMessage_content_trimmed pds msg m h,
   fun mapping currentNode l m h hm => parseMapping_mem_trimmed pds mapping currentNode l m h hm,
   fun i a c m h hm hrole => parseActivityEntry_assistant_trimmed pds shx i a c m h hm hrole⟩

/-- An activity document whose title is a single space. -/
def docC9 : JValue := .arr [.obj [("header", .str "Gemini Apps"), ("title", .str " ")]]

/-- The conversation parsed from `docC9`. -/
def convC9 : Conversation :=
  { id := .str "gemini_activity_1", title := .str " ", createTime := none,
    updateTime := none,
    messages := [{ role := .str "user", content := .str " ", timestamp := none }],
    isChatGPT := false }

/-- C9 counterexample: the whitespace-only activity title is pushed
verbatim as a user message of a retained conversation, and its content
trims to the empty string. -/
theorem claim9_counterexample :
    parseConversations pdsNone shxId 0 "x.json" docC9 = .ok (SourceKind.gemini, [convC9]) ∧
    convC9.messages = [{ role := .str "user", content := .str " ", timestamp := none }] ∧
    jsTrim " " = "" :=
  ⟨rfl, rfl, rfl⟩

/-- Witness for the amended C9 at a concrete parseMessage input. -/
theorem claim9_witness :
    ∃ s, (Message.content { role := JValue.str "user", content := JValue.str "hi",
                            timestamp := none }) = .str s ∧ s ≠ "" ∧ jsTrim s = s :=
  (claim9_amended pdsNone shxId).1 (.obj [("role", .str "user"), ("content", .str "hi")])
    { role := .str "user", content := .str "hi", timestamp := none } rfl

/-! Claim C5: message-container selection of the array-format parser. -/

/-- Amended container rule: a truthy `mapping` always wins and delegates to
the graph walk (the `messages` field is ignored); otherwise the container
is the first truthy of messages, mapping, content, history (mapping being
falsy here), and it is parsed per-element only when it is an array — a
truthy non-array first match yields no messages. -/
def specSelectMessages (pds : String → Option Rat) (conv : JValue) :
    Except Unit (List Message) :=
  if jsTruthy (jsGetD conv "mapping") then
    parseMapping pds (jsGetD conv "mapping") (jsGetD conv "current_node")
  else
    match firstTruthy [jsGetD conv "messages", jsGetD conv "mapping",
                       jsGetD conv "content", jsGetD conv "history"] with
    | .arr l => parseMessageList pds l
    | _ => .ok []

/-- C5 amended: every conversation the array-format parser retains takes
its messages from the amended container rule, and is marked as a ChatGPT
graph conversation exactly when its mapping field is truthy. -/
theorem claim5_amended (pds : String → Option Rat) (i : Nat) (conv : JValue)
    (c : Conversation) (h : parseArrayConv pds i conv = .ok (some c)) :
    specSelectMessages pds conv = .ok c.messages ∧
    c.isChatGPT = jsTruthy (jsGetD conv "mapping") := by
  unfold parseArrayConv at h
  split at h
  · simp at h
  · case h_2 idField hid =>
      split at h
      · simp at h
      · case h_2 cid2 hcid =>
          unfold specSelectMessages
          split at h
          case isTrue hmap =>
            rw [if_pos hmap]
            split at h
            · simp at h
            · case h_2 msgs hmsgs =>
                split at h
                case isTrue =>
                  injection h with h1
                  injection h1 with h2
                  rw [← h2]
                  exact ⟨hmsgs, by simp [hmap]⟩
                case isFalse => simp at h
          case isFalse hmap =>
            rw [if_neg hmap]
            split at h
            · simp at h
            · case h_2 msgs hmsgs =>
                split at h
                case isTrue =>
                  injection h with h1
                  injection h1 with h2
                  rw [← h2]
                  refine ⟨hmsgs, ?_⟩
                  simp only [Bool.not_eq_true] at hmap
                  simp [hmap]
                case isFalse => simp at h

/-- A record carrying both an array-valued messages field and a (truthy, empty-object) mapping field. -/
def docC5 : JValue :=
  .arr [.obj [("title", .str "T"),
              ("messages", .arr [.obj [("role", .str "user"), ("content", .str "hi")]]),
              ("mapping", .obj [])]]

/-- The conversation parsed from `docC5`: no messages, despite the parseable messages array. -/
def convC5 : Conversation :=
  { id := .str "conversation_1", title := .str "T", createTime := none,
    updateTime := none, messages := [], isChatGPT := true }

/-- C5 counterexample: with both fields present the mapping wins — the
conversation is retained with zero messages even though the messages array
holds a record that parseMessage accepts, refuting "the messages field wins
over mapping". -/
theorem claim5_counterexample :
    parseConversations pdsNone shxId 0 "x.json" docC5 = .ok (SourceKind.chatgpt, [convC5]) ∧
    convC5.messages = [] ∧
    parseMessage pdsNone (.obj [("role", .str "user"), ("content", .str "hi")])
      = .ok (some { role := .str "user", content := .str "hi", timestamp := none }) :=
  ⟨rfl, rfl, rfl⟩

/-- A mapping-free record used to instantiate the amended rule. -/
def convC5w : JValue :=
  .obj [("title", .str "W"),
        ("messages", .arr [.obj [("role", .str "user"), ("content", .str "hey")]])]

/-- The conversation parsed from `convC5w`. -/
def parsedC5w : Conversation :=
  { id := .str "conversation_1", title := .str "W", createTime := none,
    updateTime := none,
    messages := [{ role := .str "user", content := .str "hey", timestamp := none }],
    isChatGPT := false }

/-- Witness for the amended C5 at a concrete record. -/
theorem claim5_witness :
    specSelectMessages pdsNone convC5w = .ok parsedC5w.messages ∧
    parsedC5w.isChatGPT = jsTruthy (jsGetD convC5w "mapping") :=
  claim5_amended pdsNone 0 convC5w parsedC5w rfl

theorem lookup_some_key_mem {β} (fs : List (String × β)) (k : String) (w : β)
    (h : fs.lookup k = some w) : k ∈ fs.map Prod.fst := by
  induction fs with
  | nil => simp [List.lookup] at h
  | cons a rest ih =>
      obtain ⟨a1, a2⟩ := a
      cases hk : (k == a1) with
      | true =>
          simp only [List.map_cons, List.mem_cons]
          exact Or.inl (beq_iff_eq.mp hk)
      | false =>
          simp only [List.lookup, hk] at h
          simp only [List.map_cons, List.mem_cons]
          exact Or.inr (ih h)

theorem jsGetD_truthy_cases (v : JValue) (k : String)
    (h : jsTruthy (jsGetD v k) = true) :
    k ∈ objKeys v ∨ (k = "length" ∧ ∃ q, jsGetD v k = .num q) := by
  cases v with
  | null => simp [jsGetD, jsTruthy] at h
  | bool b => simp [jsGetD, jsTruthy] at h
  | num q => simp [jsGetD, jsTruthy] at h
  | obj fs =>
      left
      simp only [jsGetD] at h
      cases hl : fs.lookup k with
      | none => rw [hl] at h; simp [jsTruthy] at h
      | some w => simpa [objKeys] using lookup_some_key_mem fs k w hl
  | arr xs =>
      by_cases hlen : k = "length"
      · exact Or.inr ⟨hlen, xs.length, by simp [jsGetD, hlen]⟩
      · left
        simp only [jsGetD, hlen, if_false] at h
        cases hn : strToNat? k with
        | none => rw [hn] at h; simp [jsTruthy] at h
        | some n =>
            rw [hn] at h
            simp only [] at h
            by_cases hts : toString n = k
            · rw [if_pos hts] at h
              by_cases hlt : n < xs.length
              · rw [← hts]
                exact List.mem_map_of_mem toString (List.mem_range.mpr hlt)
              · rw [List.getD_eq_default _ _ (by omega)] at h
                simp [jsTruthy] at h
            · rw [if_neg hts] at h
              simp [jsTruthy] at h
  | str s =>
      by_cases hlen : k = "length"
      · exact Or.inr ⟨hlen, s.length, by simp [jsGetD, hlen]⟩
      · left
        simp only [jsGetD, hlen, if_false] at h
        cases hn : strToNat? k with
        | none => rw [hn] at h; simp [jsTruthy] at h
        | some n =>
            rw [hn] at h
            simp only [] at h
            by_cases hts : toString n = k
            · rw [if_pos hts] at h
              cases hg : s.data.get? n with
              | none => rw [hg] at h; simp [jsTruthy] at h
              | some c =>
                  have hlt : n < s.length :=
                    (List.get?_eq_some.mp hg).1
                  rw [← hts]
                  exact List.mem_map_of_mem toString (List.mem_range.mpr hlt)
            · rw [if_neg hts] at h
              simp [jsTruthy] at h

theorem length_filter_le_of_imp {α} (f g : α → Bool) (l : List α)
    (h : ∀ x, f x = true → g x = true) :
    (l.filter f).length ≤ (l.filter g).length := by
  induction l with
  | nil => simp
  | cons x xs ih =>
      by_cases hf : f x = true
      · rw [List.filter_cons, if_pos hf, List.filter_cons, if_pos (h x hf)]
        simpa using ih
      · rw [List.filter_cons, if_neg hf, List.filter_cons]
        by_cases hg : g x = true
        · rw [if_pos hg]
          simp only [List.length_cons]
          omega
        · rw [if_neg hg]
          exact ih

theorem filter_cons_seen_lt {α : Type} [BEq α] [LawfulBEq α]
    (keys seen : List α) (k : α)
    (hk : k ∈ keys) (hns : seen.contains k = false) :
    (keys.filter (fun x => !(k :: seen).contains x)).length
      < (keys.filter (fun x => !seen.contains x)).length := by
  have himp : ∀ y, (!(k :: seen).contains y) = true → (!seen.contains y) = true := by
    intro y hy
    rw [List.contains_cons] at hy
    simp at hy ⊢
    exact hy.2
  induction keys with
  | nil => cases hk
  | cons x rest ih =>
      rw [List.filter_cons, List.filter_cons]
      by_cases hxk : (x == k) = true
      · have h1 : (!(k :: seen).contains x) = false := by
          rw [List.contains_cons, hxk, Bool.true_or]
          rfl
        have h2 : (!seen.contains x) = true := by
          rw [beq_iff_eq.mp hxk, hns]
          rfl
        rw [h1, h2]
        simp only [Bool.false_eq_true, if_false, if_true, List.length_cons]
        have hle := length_filter_le_of_imp (fun y => !(k :: seen).contains y)
          (fun y => !seen.contains y) rest himp
        omega
      · have hxkf : (x == k) = false := by simpa using hxk
        have hkrest : k ∈ rest := by
          rcases List.mem_cons.mp hk with hx | hx
          · exact absurd (beq_iff_eq.mpr hx.symm) (by simp [hxkf])
          · exact hx
        have h1 : (!(k :: seen).contains x) = (!seen.contains x) := by
          rw [List.contains_cons, hxkf, Bool.false_or]
        rw [h1]
        cases hcx : (!seen.contains x) with
        | true =>
            simp only [if_true, List.length_cons]
            have := ih hkrest
            omega
        | false =>
            simp only [Bool.false_eq_true, if_false]
            exact ih hkrest

/-- A mapping node over which the leaf-chain walk body cannot throw: either
the node has no truthy `message`, or the message's `content.parts || []`
default is an array (so its `.filter` call exists). -/
def chainNodeOk (node : JValue) : Bool :=
  !jsTruthy (jsGetD node "message") ||
  (match nodeParts (jsGetD node "message") with | .arr _ => true | _ => false)

/-- Every node of the mapping is walk-safe. -/
def mappingSafe (mapping : JValue) : Bool :=
  (objKeys mapping).all (fun id => chainNodeOk (jsGetD mapping id))

theorem not_contains_cons_imp (k : String) (seen : List String) :
    ∀ y, (!(k :: seen).contains y) = true → (!seen.contains y) = true := by
  intro y hy
  rw [List.contains_cons] at hy
  simp at hy ⊢
  exact hy.2

/-- The `entry &&& push` of one successful walk iteration as a list. -/
def entryList : Option Message → List Message
  | some m => [m]
  | none => []

theorem chainNodeMsg_num (pds : String → Option Rat) (q : Rat) :
    chainNodeMsg pds (.num q) = .ok none := rfl

theorem chainNodeMsg_isOk (pds : String → Option Rat) (node : JValue)
    (h : chainNodeOk node = true) : ∃ o, chainNodeMsg pds node = .ok o := by
  by_cases hm : jsTruthy (jsGetD node "message") = true
  · have harr : ∃ l, nodeParts (jsGetD node "message") = .arr l := by
      unfold chainNodeOk at h
      rw [hm] at h
      simp only [Bool.not_true, Bool.false_or] at h
      cases hp : nodeParts (jsGetD node "message") with
      | arr l => exact ⟨l, rfl⟩
      | null => rw [hp] at h; simp at h
      | bool b => rw [hp] at h; simp at h
      | num q => rw [hp] at h; simp at h
      | str s => rw [hp] at h; simp at h
      | obj fs => rw [hp] at h; simp at h
    obtain ⟨l, hl⟩ := harr
    unfold chainNodeMsg
    rw [if_pos hm, hl]
    simp only []
    by_cases hc : (((optAuthorRole (jsGetD node "message")).eqStr "user" ||
        (optAuthorRole (jsGetD node "message")).eqStr "assistant") && partsText l != "") = true
    · rw [if_pos hc]
      exact ⟨_, rfl⟩
    · rw [if_neg hc]
      exact ⟨none, rfl⟩
  · unfold chainNodeMsg
    rw [if_neg hm]
    exact ⟨none, rfl⟩

theorem walkChain_not_truthy (pds : String → Option Rat) (mapping : JValue)
    (fuel : Nat) (seen : List JValue) (current : JValue)
    (h : jsTruthy current = false) :
    walkChain pds mapping fuel seen current = .ok [] := by
  cases fuel with
  | zero => rfl
  | succ f =>
      simp only [walkChain]
      rw [if_neg (by rw [h]; simp)]

/-- The parent pointer values of a mapping's entries: every `current` value
of a walk iteration after the first is one of these, or null (which stops
the walk). -/
def parentsList (mapping : JValue) : List JValue :=
  (objKeys mapping).map (fun id => jsGetD (jsGetD mapping id) "parent")

theorem walkChain_ok_raw (pds : String → Option Rat) (mapping : JValue) :
    ∀ (fuel : Nat) (seen : List JValue) (current : JValue),
      mappingSafe mapping = true →
      current ∈ parentsList mapping →
      ((parentsList mapping).filter (fun v => !seen.contains v)).length ≤ fuel →
      ∃ l, walkChain pds mapping fuel seen current = .ok l ∧
           l.length ≤ ((parentsList mapping).filter (fun v => !seen.contains v)).length := by
  intro fuel
  induction fuel with
  | zero =>
      intro seen current hsafe hcur hfuel
      exact ⟨[], rfl, Nat.zero_le _⟩
  | succ fuel ih =>
      intro seen current hsafe hcur hfuel
      by_cases hcond : (jsTruthy current && jsTruthy (jsGetD mapping (jsPropKey current)) &&
          !seen.contains current) = true
      · have hcond2 := hcond
        simp only [Bool.and_eq_true] at hcond2
        have htr : jsTruthy (jsGetD mapping (jsPropKey current)) = true := hcond2.1.2
        have hns' : (!seen.contains current) = true := hcond2.2
        have hseen : seen.contains current = false := by
          cases hsc : seen.contains current
          · rfl
          · rw [hsc] at hns'
            simp at hns'
        have hlt := filter_cons_seen_lt (parentsList mapping) seen current hcur hseen
        rcases jsGetD_truthy_cases mapping (jsPropKey current) htr with hmem | ⟨hlen, q, hq⟩
        · have hok : chainNodeOk (jsGetD mapping (jsPropKey current)) = true := by
            unfold mappingSafe at hsafe
            exact List.all_eq_true.mp hsafe _ hmem
          obtain ⟨o, ho⟩ := chainNodeMsg_isOk pds _ hok
          have hpar : jsGetD (jsGetD mapping (jsPropKey current)) "parent"
              ∈ parentsList mapping :=
            List.mem_map_of_mem (fun id => jsGetD (jsGetD mapping id) "parent") hmem
          have hfuel2 : ((parentsList mapping).filter
              (fun v => !(current :: seen).contains v)).length ≤ fuel := by
            omega
          obtain ⟨rest, hrest, hrlen⟩ := ih (current :: seen)
            (jsGetD (jsGetD mapping (jsPropKey current)) "parent") hsafe hpar hfuel2
          refine ⟨entryList o ++ rest, ?_, ?_⟩
          · simp only [walkChain]
            rw [if_pos hcond, ho, hrest]
            cases o <;> rfl
          · have hone : (entryList o).length ≤ 1 := by
              cases o <;> simp [entryList]
            rw [List.length_append]
            omega
        · have hnode : chainNodeMsg pds (jsGetD mapping (jsPropKey current)) = .ok none := by
            rw [hq]
            exact chainNodeMsg_num pds q
          have hpar : jsGetD (jsGetD mapping (jsPropKey current)) "parent" = JValue.null := by
            rw [hq]
            rfl
          refine ⟨[], ?_, Nat.zero_le _⟩
          simp only [walkChain]
          rw [if_pos hcond, hnode, hpar,
            walkChain_not_truthy pds mapping fuel (current :: seen) JValue.null rfl]
          rfl
      · refine ⟨[], ?_, Nat.zero_le _⟩
        simp only [walkChain]
        rw [if_neg hcond]

theorem walkChain_top_bound (pds : String → Option Rat) (mapping currentNode : JValue)
    (hsafe : mappingSafe mapping = true) :
    ∃ l, walkChain pds mapping ((objKeys mapping).length + 1) [] currentNode = .ok l ∧
         l.length ≤ (objKeys mapping).length + 1 := by
  by_cases hcond : (jsTruthy currentNode && jsTruthy (jsGetD mapping (jsPropKey currentNode)) &&
      !(([] : List JValue).contains currentNode)) = true
  · have hcond2 := hcond
    simp only [Bool.and_eq_true] at hcond2
    have htr : jsTruthy (jsGetD mapping (jsPropKey currentNode)) = true := hcond2.1.2
    rcases jsGetD_truthy_cases mapping (jsPropKey currentNode) htr with hmem | ⟨hlen, q, hq⟩
    · have hok : chainNodeOk (jsGetD mapping (jsPropKey currentNode)) = true := by
        unfold mappingSafe at hsafe
        exact List.all_eq_true.mp hsafe _ hmem
      obtain ⟨o, ho⟩ := chainNodeMsg_isOk pds _ hok
      have hpar : jsGetD (jsGetD mapping (jsPropKey currentNode)) "parent"
          ∈ parentsList mapping :=
        List.mem_map_of_mem (fun id => jsGetD (jsGetD mapping id) "parent") hmem
      have hfl : ((parentsList mapping).filter
          (fun v => !(([currentNode] : List JValue).contains v))).length
          ≤ (objKeys mapping).length := by
        calc ((parentsList mapping).filter
            (fun v => !(([currentNode] : List JValue).contains v))).length
            ≤ (parentsList mapping).length := List.length_filter_le _ _
          _ = (objKeys mapping).length := by
              unfold parentsList
              exact List.length_map _ _
      obtain ⟨rest, hrest, hrlen⟩ := walkChain_ok_raw pds mapping
        ((objKeys mapping).length) [currentNode]
        (jsGetD (jsGetD mapping (jsPropKey currentNode)) "parent") hsafe hpar hfl
      refine ⟨entryList o ++ rest, ?_, ?_⟩
      · simp only [walkChain]
        rw [if_pos hcond, ho, hrest]
        cases o <;> rfl
      · have hone : (entryList o).length ≤ 1 := by
          cases o <;> simp [entryList]
        rw [List.length_append]
        omega
    · have hnode : chainNodeMsg pds (jsGetD mapping (jsPropKey currentNode)) = .ok none := by
        rw [hq]
        exact chainNodeMsg_num pds q
      have hpar : jsGetD (jsGetD mapping (jsPropKey currentNode)) "parent" = JValue.null := by
        rw [hq]
        rfl
      refine ⟨[], ?_, Nat.zero_le _⟩
      simp only [walkChain]
      rw [if_pos hcond, hnode, hpar,
        walkChain_not_truthy pds mapping ((objKeys mapping).length) [currentNode]
          JValue.null rfl]
      rfl
  · refine ⟨[], ?_, Nat.zero_le _⟩
    simp only [walkChain]
    rw [if_neg hcond]

/-- A self-referential mapping (node `a` is its own parent) whose node has a
truthy message whose `content.parts` is the number 42: the walk's
`parts.filter(...)` call throws a TypeError in JS. -/
def cycBad : JValue :=
  .obj [("a", .obj [("message", .obj [("content", .obj [("parts", .num 42)])]),
                    ("parent", .str "a")])]

/-- A walk-safe one-key mapping whose node points back to itself through a
NUMERIC parent: the leaf string "1" and the parent number 1 coerce to the
same property key but are distinct members of the visited Set of raw
values, so the walk visits the single node twice before stopping. -/
def mixedMap : JValue :=
  .obj [("1", .obj [("message", .obj [("author", .obj [("role", .str "user")]),
                                      ("content", .obj [("parts", .arr [.str "hi"])])]),
                    ("parent", .num 1)])]

/-- The double visit on mixedMap: the single node is emitted once per
pointer value (string "1", then number 1), so one mapping key yields two
messages — the key-count-plus-one bound is tight, and "each node at most
once" is false of the walk. -/
theorem mixedMap_double_visit :
    parseMapping pdsNone mixedMap (.str "1") =
      .ok [{ role := .str "user", content := .str "hi", timestamp := none },
           { role := .str "user", content := .str "hi", timestamp := none }] := rfl

/-- C4 (corrected): for every walk-safe mapping (each node's truthy message
has an array-typed `content.parts || []` default, so the per-node `.filter`
call exists) and every resolvable leaf pointer — parent cycles and
self-references included — the leaf-chain walk of parseMapping terminates
normally and returns a finite message list.  The visited set holds the raw
pointer values, not the nodes they index, so each distinct pointer value is
consumed at most once while a node reachable under two pointer values (the
number 1 and the string "1") is visited once per value; the walk therefore
takes at most one step per mapping key beyond the initial leaf, and the
list is no longer than the key count plus one.  Without walk-safety the
walk can instead throw, which is what the original claim missed. -/
theorem claim4_amended (pds : String → Option Rat) (mapping currentNode : JValue)
    (hleaf : (jsTruthy currentNode && jsTruthy (jsGetD mapping (jsPropKey currentNode))) = true)
    (hsafe : mappingSafe mapping = true) :
    ∃ l, parseMapping pds mapping currentNode = .ok l ∧
         l.length ≤ (objKeys mapping).length + 1 := by
  obtain ⟨l, hl, hlen⟩ := walkChain_top_bound pds mapping currentNode hsafe
  refine ⟨l.reverse, ?_, ?_⟩
  · unfold parseMapping
    rw [if_pos hleaf, hl]
  · rw [List.length_reverse]
    exact hlen

/-- C4 counterexample: the self-cycle mapping cycBad with resolvable leaf
pointer "a" makes the leaf-chain walk throw (the node's truthy message has
`content.parts` equal to the number 42, so `.filter` does not exist) instead
of returning a message sequence. -/
theorem claim4_counterexample :
    (jsTruthy (JValue.str "a") && jsTruthy (jsGetD cycBad (jsPropKey (JValue.str "a")))) = true ∧
    parseMapping pdsNone cycBad (.str "a") = .error () := ⟨rfl, rfl⟩

/-- C4 witness: the walk-safe mixed-pointer self-cycle mixedMap with leaf
"1" satisfies the amended theorem's hypotheses, and the walk returns a
bounded list. -/
theorem claim4_witness :
    ∃ l, parseMapping pdsNone mixedMap (.str "1") = .ok l ∧
         l.length ≤ (objKeys mixedMap).length + 1 :=
  claim4_amended pdsNone mixedMap (.str "1") (by rfl) (by rfl)

theorem lookup_of_mem_nodup {β} (fs : List (String × β)) (k : String) (v : β)
    (hnd : (fs.map Prod.fst).Nodup) (hm : (k, v) ∈ fs) :
    fs.lookup k = some v := by
  induction fs with
  | nil => cases hm
  | cons a rest ih =>
      obtain ⟨a1, a2⟩ := a
      rcases List.mem_cons.mp hm with he | hm2
      · injection he with h1 h2
        subst h1
        subst h2
        simp [List.lookup]
      · have hk1 : k ∈ rest.map Prod.fst := List.mem_map_of_mem Prod.fst hm2
        have hne : k ≠ a1 := by
          intro he
          subst he
          exact (List.nodup_cons.mp hnd).1 hk1
        have hkb : (k == a1) = false := beq_eq_false_iff_ne.mpr hne
        simp only [List.lookup, hkb]
        exact ih (List.nodup_cons.mp hnd).2 hm2

/-- The message (if any) the leaf-chain walk collects for one mapping
entry. -/
def chainExtract (pds : String → Option Rat) (kv : String × JValue) : Option Message :=
  (chainNodeMsg pds kv.2).toOption.bind id

theorem walkChain_on_chain (pds : String → Option Rat) (fs : List (String × JValue))
    (hnodup : (fs.map Prod.fst).Nodup)
    (hids : ∀ p ∈ fs, p.1 ≠ "")
    (hnodes : ∀ p ∈ fs, jsTruthy p.2 = true)
    (hok : ∀ p ∈ fs, ∃ o, chainNodeMsg pds p.2 = .ok o) :
    ∀ (l : List (String × JValue)), ∀ (fuel : Nat)
      (suffix : List (String × JValue)) (tail : String × JValue),
      fs = l ++ suffix →
      l.getLast? = some tail →
      List.Chain' (fun a b => jsGetD b.2 "parent" = .str a.1) l →
      (∀ p, l.head? = some p → jsTruthy (jsGetD p.2 "parent") = false) →
      l.length + 1 ≤ fuel →
      walkChain pds (.obj fs) fuel (suffix.map (fun p => JValue.str p.1)) (.str tail.1)
        = .ok ((l.filterMap (chainExtract pds)).reverse) := by
  intro l
  induction l using List.reverseRecOn with
  | nil =>
      intro fuel suffix tail hfs htail hchain hroot hfuel
      simp at htail
  | append_singleton l2 a ih =>
      intro fuel suffix tail hfs htail hchain hroot hfuel
      have hta : tail = a := by
        rw [List.getLast?_concat] at htail
        injection htail with h
        exact h.symm
      subst hta
      have hafs : tail ∈ fs := by
        rw [hfs]
        simp
      rw [List.length_append] at hfuel
      cases fuel with
      | zero => omega
      | succ f =>
          have hid : tail.1 ≠ "" := hids tail hafs
          have hidT : jsTruthy (JValue.str tail.1) = true := by
            simp [jsTruthy]
            exact hid
          have hlook : fs.lookup tail.1 = some tail.2 :=
            lookup_of_mem_nodup fs tail.1 tail.2 hnodup hafs
          have hgd : jsGetD (.obj fs) tail.1 = tail.2 := by
            simp [jsGetD, hlook]
          have hnT : jsTruthy (jsGetD (.obj fs) tail.1) = true := by
            rw [hgd]
            exact hnodes tail hafs
          have hnotmem : tail.1 ∉ suffix.map Prod.fst := by
            have hnd2 : (((l2 ++ [tail]) ++ suffix).map Prod.fst).Nodup := hfs ▸ hnodup
            rw [List.map_append] at hnd2
            have hdisj := (List.nodup_append.mp hnd2).2.2
            have hmem : tail.1 ∈ (l2 ++ [tail]).map Prod.fst :=
              List.mem_map_of_mem Prod.fst (by simp)
            exact fun hc => hdisj hmem hc
          have hseen : (suffix.map (fun p => JValue.str p.1)).contains
              (JValue.str tail.1) = false := by
            cases hc : (suffix.map (fun p => JValue.str p.1)).contains (JValue.str tail.1)
            · rfl
            · exfalso
              obtain ⟨p, hp, he⟩ := List.mem_map.mp (List.mem_of_elem_eq_true hc)
              have hpe : p.1 = tail.1 := by
                injection he
              exact hnotmem (hpe ▸ List.mem_map_of_mem Prod.fst hp)
          have hcond : (jsTruthy (JValue.str tail.1) &&
              jsTruthy (jsGetD (.obj fs) (jsPropKey (JValue.str tail.1))) &&
              !(suffix.map (fun p => JValue.str p.1)).contains (JValue.str tail.1)) = true := by
            simp only [jsPropKey]
            rw [hidT, hnT, hseen]
            rfl
          obtain ⟨o, ho⟩ := hok tail hafs
          have hex : chainExtract pds tail = o := by
            simp [chainExtract, ho, Except.toOption]
          simp only [walkChain]
          rw [if_pos hcond]
          simp only [jsPropKey]
          rw [hgd, ho]
          cases l2 with
          | nil =>
              have hpar : jsTruthy (jsGetD tail.2 "parent") = false := hroot tail rfl
              rw [walkChain_not_truthy pds _ f _ _ hpar]
              cases hoc : o <;>
                simp [hoc ▸ hex, List.filterMap_cons]
          | cons b mid =>
              obtain ⟨hc1, hc2, hcross⟩ := List.chain'_append.mp hchain
              obtain ⟨t2, hgl⟩ : ∃ t2, (b :: mid).getLast? = some t2 :=
                ⟨_, List.getLast?_eq_getLast _ (by simp)⟩
              have hrel : jsGetD tail.2 "parent" = .str t2.1 := by
                have := hcross t2 (by rw [hgl]; rfl) tail rfl
                exact this
              rw [hrel]
              have hfs2 : fs = (b :: mid) ++ (tail :: suffix) := by
                rw [hfs]
                simp
              have hroot2 : ∀ p, (b :: mid).head? = some p →
                  jsTruthy (jsGetD p.2 "parent") = false := by
                intro p hp
                exact hroot p hp
              have hfuel2 : (b :: mid).length + 1 ≤ f := by
                simp only [List.length_cons] at hfuel ⊢
                omega
              have ihx := ih f (tail :: suffix) t2 hfs2 hgl hc1 hroot2 hfuel2
              simp only [List.map_cons] at ihx
              rw [ihx]
              cases hoc : o with
              | none =>
                  simp [hoc ▸ hex, List.filterMap_append, List.filterMap_cons,
                    List.reverse_append]
              | some m =>
                  simp only [hoc ▸ hex, List.filterMap_append, List.filterMap_cons,
                    List.filterMap_nil, List.reverse_append]
                  cases hcb : chainExtract pds b <;> simp

/-- C3 (confirmed): for a ChatGPT-style mapping whose entries form a linear
parent chain — distinct non-empty node ids, truthy nodes, each node's parent
pointing at the previous entry's id and the first entry's parent falsy —
whose well-formed nodes do not make the walk throw, and whose leaf pointer
is the chain's tail id, parseMapping resolves exactly the per-node extracted
messages (each node contributing its message unless its author role is not
user/assistant or its joined parts text is empty, in which case it is
skipped), in root-to-leaf order: the walk collects newest-first and the
result is reversed at the end. -/
theorem claim3_linear_chain (pds : String → Option Rat)
    (fs : List (String × JValue)) (tail : String × JValue)
    (hnodup : (fs.map Prod.fst).Nodup)
    (hids : ∀ p ∈ fs, p.1 ≠ "")
    (hnodes : ∀ p ∈ fs, jsTruthy p.2 = true)
    (hok : ∀ p ∈ fs, ∃ o, chainNodeMsg pds p.2 = .ok o)
    (htail : fs.getLast? = some tail)
    (hchain : List.Chain' (fun a b => jsGetD b.2 "parent" = .str a.1) fs)
    (hroot : ∀ p, fs.head? = some p → jsTruthy (jsGetD p.2 "parent") = false) :
    parseMapping pds (.obj fs) (.str tail.1) = .ok (fs.filterMap (chainExtract pds)) := by
  have htl : tail ∈ fs := List.mem_of_mem_getLast? htail
  have hidT : jsTruthy (JValue.str tail.1) = true := by
    simp [jsTruthy]
    exact hids tail htl
  have hlook : fs.lookup tail.1 = some tail.2 :=
    lookup_of_mem_nodup fs tail.1 tail.2 hnodup htl
  have hgd : jsGetD (.obj fs) tail.1 = tail.2 := by
    simp [jsGetD, hlook]
  have hnT : jsTruthy (jsGetD (.obj fs) (jsPropKey (JValue.str tail.1))) = true := by
    simp only [jsPropKey]
    rw [hgd]
    exact hnodes tail htl
  have hcond : (jsTruthy (JValue.str tail.1) &&
      jsTruthy (jsGetD (.obj fs) (jsPropKey (JValue.str tail.1)))) = true := by
    rw [hidT, hnT]
    rfl
  have hfuel : fs.length + 1 ≤ (objKeys (.obj fs)).length + 1 := by
    simp [objKeys]
  have hwalk := walkChain_on_chain pds fs hnodup hids hnodes hok fs
    ((objKeys (.obj fs)).length + 1) [] tail (by simp) htail hchain hroot hfuel
  simp only [List.map_nil] at hwalk
  unfold parseMapping
  rw [if_pos hcond, hwalk]
  simp only []
  rw [List.reverse_reverse]

/-- Chain node `a`: the root (falsy parent), a user message "first". -/
def nodeA : JValue :=
  .obj [("message", .obj [("author", .obj [("role", .str "user")]),
                          ("content", .obj [("parts", .arr [.str "first"])])]),
        ("parent", .null)]

/-- Chain node `b`: child of `a`, an assistant message "second". -/
def nodeB : JValue :=
  .obj [("message", .obj [("author", .obj [("role", .str "assistant")]),
                          ("content", .obj [("parts", .arr [.str "second"])])]),
        ("parent", .str "a")]

/-- Chain node `c`: child of `b` and tail of the chain, a user message
"third". -/
def nodeC : JValue :=
  .obj [("message", .obj [("author", .obj [("role", .str "user")]),
                          ("content", .obj [("parts", .arr [.str "third"])])]),
        ("parent", .str "b")]

/-- The three-entry linear-chain mapping a ← b ← c. -/
def chainFs : List (String × JValue) := [("a", nodeA), ("b", nodeB), ("c", nodeC)]

/-- C3 witness: the concrete three-node linear chain with leaf pointer "c"
satisfies every hypothesis, and parseMapping returns its per-node extraction
in root-to-leaf order. -/
theorem claim3_witness :
    parseMapping pdsNone (.obj chainFs) (.str "c") =
      .ok (chainFs.filterMap (chainExtract pdsNone)) :=
  claim3_linear_chain pdsNone chainFs ("c", nodeC)
    (by decide)
    (by decide)
    (by decide)
    (by
      intro p hp
      rcases List.mem_cons.mp hp with rfl | hp
      · exact ⟨_, rfl⟩
      rcases List.mem_cons.mp hp with rfl | hp
      · exact ⟨_, rfl⟩
      rcases List.mem_cons.mp hp with rfl | hp
      · exact ⟨_, rfl⟩
      cases hp)
    rfl
    (by
      refine List.chain'_cons.mpr ⟨rfl, ?_⟩
      refine List.chain'_cons.mpr ⟨rfl, ?_⟩
      exact List.chain'_singleton _)
    (by
      intro p hp
      injection hp with h
      subst h
      rfl)

theorem parseArrayConv_retention (pds : String → Option Rat) (i : Nat) (conv : JValue)
    (c : Conversation) (h : parseArrayConv pds i conv = .ok (some c)) :
    c.messages ≠ [] ∨ (jsTruthy c.title = true ∧ jsTruthy (jsGetD conv "title") = true) := by
  unfold parseArrayConv at h
  split at h
  · exact Except.noConfusion h
  · split at h
    · exact Except.noConfusion h
    · split at h
      · split at h
        · exact Except.noConfusion h
        · injection h with h2
          split at h2
          · next hc =>
              injection h2 with h3
              subst h3
              simp only [Bool.or_eq_true, decide_eq_true_eq] at hc
              rcases hc with hlen | htit
              · exact Or.inl (List.ne_nil_of_length_pos hlen)
              · exact Or.inr ⟨by simp [htit], htit⟩
          · exact Option.noConfusion h2
      · split at h
        · exact Except.noConfusion h
        · injection h with h2
          split at h2
          · next hc =>
              injection h2 with h3
              subst h3
              simp only [Bool.or_eq_true, decide_eq_true_eq] at hc
              rcases hc with hlen | htit
              · exact Or.inl (List.ne_nil_of_length_pos hlen)
              · exact Or.inr ⟨by simp [htit], htit⟩
          · exact Option.noConfusion h2

/-- Retention invariant of one output conversation: messages present, or a
truthy title inherited from an array-format source record with a truthy
title. -/
def RetP (pds : String → Option Rat) (c : Conversation) : Prop :=
  c.messages ≠ [] ∨ (jsTruthy c.title = true ∧
    ∃ i src, parseArrayConv pds i src = .ok (some c) ∧
             jsTruthy (jsGetD src "title") = true)

theorem parseArrayFormatFrom_retention (pds : String → Option Rat) :
    ∀ (l : List JValue) (i : Nat) (cs : List Conversation),
      parseArrayFormatFrom pds i l = .ok cs → ∀ c ∈ cs, RetP pds c := by
  intro l
  induction l with
  | nil =>
      intro i cs h c hc
      simp only [parseArrayFormatFrom] at h
      injection h with h2
      subst h2
      cases hc
  | cons x rest ih =>
      intro i cs h c hc
      simp only [parseArrayFormatFrom] at h
      cases hpc : parseArrayConv pds i x with
      | error e => rw [hpc] at h; exact Except.noConfusion h
      | ok r =>
          rw [hpc] at h
          simp only [] at h
          cases hrec : parseArrayFormatFrom pds (i + 1) rest with
          | error e => rw [hrec] at h; exact Except.noConfusion h
          | ok rs =>
              rw [hrec] at h
              simp only [] at h
              injection h with h2
              subst h2
              rcases List.mem_append.mp hc with hcl | hcr
              · cases r with
                | none => simp at hcl
                | some conv =>
                    have hce : c = conv := by simpa using hcl
                    subst hce
                    rcases parseArrayConv_retention pds i x c hpc with hm | ⟨ht1, ht2⟩
                    · exact Or.inl hm
                    · exact Or.inr ⟨ht1, i, x, hpc, ht2⟩
              · exact ih (i + 1) rs hrec c hcr

theorem parseArrayFormat_retention (pds : String → Option Rat) (l : List JValue)
    (cs : List Conversation) (h : parseArrayFormat pds l = .ok cs) :
    ∀ c ∈ cs, RetP pds c :=
  parseArrayFormatFrom_retention pds l 0 cs h

theorem parseTakeoutChat_retention (pds : String → Option Rat) (i : Nat) (chat : JValue)
    (c : Conversation) (h : parseTakeoutChat pds i chat = .ok (some c)) :
    c.messages ≠ [] := by
  unfold parseTakeoutChat at h
  split at h
  · exact Except.noConfusion h
  · simp only [] at h
    split at h
    · exact Except.noConfusion h
    · injection h with h2
      split at h2
      · next hc =>
          injection h2 with h3
          subst h3
          exact List.ne_nil_of_length_pos hc
      · exact Option.noConfusion h2

theorem parseTakeoutFrom_retention (pds : String → Option Rat) :
    ∀ (l : List JValue) (i : Nat) (cs : List Conversation),
      parseTakeoutFrom pds i l = .ok cs → ∀ c ∈ cs, c.messages ≠ [] := by
  intro l
  induction l with
  | nil =>
      intro i cs h c hc
      simp only [parseTakeoutFrom] at h
      injection h with h2
      subst h2
      cases hc
  | cons x rest ih =>
      intro i cs h c hc
      simp only [parseTakeoutFrom] at h
      cases hpc : parseTakeoutChat pds i x with
      | error e => rw [hpc] at h; exact Except.noConfusion h
      | ok r =>
          rw [hpc] at h
          simp only [] at h
          cases hrec : parseTakeoutFrom pds (i + 1) rest with
          | error e => rw [hrec] at h; exact Except.noConfusion h
          | ok rs =>
              rw [hrec] at h
              simp only [] at h
              injection h with h2
              subst h2
              rcases List.mem_append.mp hc with hcl | hcr
              · cases r with
                | none => simp at hcl
                | some conv =>
                    have hce : c = conv := by simpa using hcl
                    subst hce
                    exact parseTakeoutChat_retention pds i x c hpc
              · exact ih (i + 1) rs hrec c hcr

theorem parseTakeoutFormat_retention (pds : String → Option Rat) (chats : JValue)
    (cs : List Conversation) (h : parseTakeoutFormat pds chats = .ok cs) :
    ∀ c ∈ cs, c.messages ≠ [] := by
  unfold parseTakeoutFormat at h
  split at h
  · next l => exact parseTakeoutFrom_retention pds l 0 cs h
  · injection h with h2
    subst h2
    intro c hc
    cases hc

theorem parseActivityEntry_retention (pds : String → Option Rat)
    (shx : String → String) (i : Nat) (a : JValue) (c : Conversation)
    (h : parseActivityEntry pds shx i a = .ok (some c)) : c.messages ≠ [] := by
  unfold parseActivityEntry at h
  split at h
  · exact Except.noConfusion h
  · split at h
    · exact Except.noConfusion h
    · split at h
      · exact Except.noConfusion h
      · split at h
        · next hc =>
            injection h with h2
            injection h2 with h3
            subst h3
            exact List.ne_nil_of_length_pos hc
        · injection h with h2
          exact Option.noConfusion h2

theorem parseActivityFrom_retention (pds : String → Option Rat) (shx : String → String) :
    ∀ (l : List JValue) (i : Nat) (cs : List Conversation),
      parseActivityFrom pds shx i l = .ok cs → ∀ c ∈ cs, c.messages ≠ [] := by
  intro l
  induction l with
  | nil =>
      intro i cs h c hc
      simp only [parseActivityFrom] at h
      injection h with h2
      subst h2
      cases hc
  | cons x rest ih =>
      intro i cs h c hc
      simp only [parseActivityFrom] at h
      cases hpc : parseActivityEntry pds shx i x with
      | error e => rw [hpc] at h; exact Except.noConfusion h
      | ok r =>
          rw [hpc] at h
          simp only [] at h
          cases hrec : parseActivityFrom pds shx (i + 1) rest with
          | error e => rw [hrec] at h; exact Except.noConfusion h
          | ok rs =>
              rw [hrec] at h
              simp only [] at h
              injection h with h2
              subst h2
              rcases List.mem_append.mp hc with hcl | hcr
              · cases r with
                | none => simp at hcl
                | some conv =>
                    have hce : c = conv := by simpa using hcl
                    subst hce
                    exact parseActivityEntry_retention pds shx i x c hpc
              · exact ih (i + 1) rs hrec c hcr

theorem parseGeminiActivityFormat_retention (pds : String → Option Rat)
    (shx : String → String) (activities : JValue) (cs : List Conversation)
    (h : parseGeminiActivityFormat pds shx activities = .ok cs) :
    ∀ c ∈ cs, c.messages ≠ [] := by
  unfold parseGeminiActivityFormat at h
  split at h
  · next l => exact parseActivityFrom_retention pds shx l.reverse 0 cs h
  · injection h with h2
    subst h2
    intro c hc
    cases hc

theorem parseSingleConversation_retention (pds : String → Option Rat) (data : JValue)
    (cs : List Conversation) (h : parseSingleConversation pds data = .ok cs) :
    ∀ c ∈ cs, c.messages ≠ [] := by
  unfold parseSingleConversation at h
  split at h
  · exact Except.noConfusion h
  · simp only [] at h
    split at h
    · exact Except.noConfusion h
    · injection h with h2
      subst h2
      intro c hc
      split at hc
      · next hlen =>
          rw [List.mem_singleton] at hc
          subst hc
          exact List.ne_nil_of_length_pos hlen
      · cases hc

theorem parseApiFormat_retention (now : Rat) (data : JValue)
    (cs : List Conversation) (h : parseApiFormat now data = .ok cs) :
    ∀ c ∈ cs, c.messages ≠ [] := by
  unfold parseApiFormat at h
  split at h
  · exact Except.noConfusion h
  · split at h
    · exact Except.noConfusion h
    · injection h with h2
      subst h2
      intro c hc
      split at hc
      · next hlen =>
          rw [List.mem_singleton] at hc
          subst hc
          exact List.ne_nil_of_length_pos hlen
      · cases hc

mutual

theorem findConversations_retention (pds : String → Option Rat) :
    ∀ (v : JValue) (cs : List Conversation), findConversations pds v = .ok cs →
      ∀ c ∈ cs, RetP pds c := by
  intro v
  cases v with
  | arr xs =>
      cases xs with
      | nil =>
          intro cs h c hc
          simp only [findConversations] at h
          injection h with h2
          subst h2
          cases hc
      | cons x rest =>
          intro cs h c hc
          simp only [findConversations] at h
          split at h
          · exact parseArrayFormat_retention pds (x :: rest) cs h c hc
          · exact findEntriesArr_retention pds 0 (x :: rest) cs h c hc
  | obj fs =>
      intro cs h c hc
      simp only [findConversations] at h
      exact findEntriesObj_retention pds fs cs h c hc
  | null =>
      intro cs h c hc
      simp only [findConversations] at h
      injection h with h2
      subst h2
      cases hc
  | bool b =>
      intro cs h c hc
      simp only [findConversations] at h
      injection h with h2
      subst h2
      cases hc
  | num q =>
      intro cs h c hc
      simp only [findConversations] at h
      injection h with h2
      subst h2
      cases hc
  | str s =>
      intro cs h c hc
      simp only [findConversations] at h
      injection h with h2
      subst h2
      cases hc

theorem findEntriesObj_retention (pds : String → Option Rat) :
    ∀ (fs : List (String × JValue)) (cs : List Conversation),
      findEntriesObj pds fs = .ok cs → ∀ c ∈ cs, RetP pds c := by
  intro fs
  cases fs with
  | nil =>
      intro cs h c hc
      simp only [findEntriesObj] at h
      injection h with h2
      subst h2
      cases hc
  | cons kv rest =>
      obtain ⟨k, v⟩ := kv
      intro cs h c hc
      simp only [findEntriesObj] at h
      cases hhit : (if keyTriggers k = true then
          match v with
          | JValue.arr l => parseArrayFormat pds l
          | _ => Except.ok []
        else Except.ok []) with
      | error e => rw [hhit] at h; exact Except.noConfusion h
      | ok hit =>
          rw [hhit] at h
          simp only [] at h
          cases hsub : findConversations pds v with
          | error e => rw [hsub] at h; exact Except.noConfusion h
          | ok sub =>
              rw [hsub] at h
              simp only [] at h
              cases hmore : findEntriesObj pds rest with
              | error e => rw [hmore] at h; exact Except.noConfusion h
              | ok more =>
                  rw [hmore] at h
                  simp only [] at h
                  injection h with h2
                  subst h2
                  rcases List.mem_append.mp hc with hcl | hcm
                  · rcases List.mem_append.mp hcl with hch | hcs
                    · split at hhit
                      · split at hhit
                        · next l =>
                            exact parseArrayFormat_retention pds l hit hhit c hch
                        · injection hhit with h3
                          subst h3
                          cases hch
                      · injection hhit with h3
                        subst h3
                        cases hch
                    · exact findConversations_retention pds v sub hsub c hcs
                  · exact findEntriesObj_retention pds rest more hmore c hcm

theorem findEntriesArr_retention (pds : String → Option Rat) :
    ∀ (i : Nat) (l : List JValue) (cs : List Conversation),
      findEntriesArr pds i l = .ok cs → ∀ c ∈ cs, RetP pds c := by
  intro i l
  cases l with
  | nil =>
      intro cs h c hc
      simp only [findEntriesArr] at h
      injection h with h2
      subst h2
      cases hc
  | cons v rest =>
      intro cs h c hc
      simp only [findEntriesArr] at h
      cases hhit : (if keyTriggers (toString i) = true then
          match v with
          | JValue.arr l2 => parseArrayFormat pds l2
          | _ => Except.ok []
        else Except.ok []) with
      | error e => rw [hhit] at h; exact Except.noConfusion h
      | ok hit =>
          rw [hhit] at h
          simp only [] at h
          cases hsub : findConversations pds v with
          | error e => rw [hsub] at h; exact Except.noConfusion h
          | ok sub =>
              rw [hsub] at h
              simp only [] at h
              cases hmore : findEntriesArr pds (i + 1) rest with
              | error e => rw [hmore] at h; exact Except.noConfusion h
              | ok more =>
                  rw [hmore] at h
                  simp only [] at h
                  injection h with h2
                  subst h2
                  rcases List.mem_append.mp hc with hcl | hcm
                  · rcases List.mem_append.mp hcl with hch | hcs
                    · split at hhit
                      · split at hhit
                        · next l2 =>
                            exact parseArrayFormat_retention pds l2 hit hhit c hch
                        · injection hhit with h3
                          subst h3
                          cases hch
                      · injection hhit with h3
                        subst h3
                        cases hch
                    · exact findConversations_retention pds v sub hsub c hcs
                  · exact findEntriesArr_retention pds (i + 1) rest more hmore c hcm

end

theorem dispatchFormats_retention (pds : String → Option Rat) (shx : String → String)
    (now : Rat) (src0 : SourceKind) (doc : JValue) (s : SourceKind)
    (convs : List Conversation)
    (h : dispatchFormats pds shx now src0 doc = .ok (s, convs)) :
    ∀ c ∈ convs, RetP pds c := by
  unfold dispatchFormats at h
  split at h
  · -- doc = .arr (x :: xs)
    split at h
    · exact Except.noConfusion h
    · split at h
      · exact Except.noConfusion h
      · split at h
        · -- Gemini activity branch
          split at h
          · exact Except.noConfusion h
          · next convs2 heq =>
              injection h with h2
              injection h2 with hs hcv
              subst hcv
              intro c hc
              exact Or.inl (parseGeminiActivityFormat_retention pds shx _ convs2 heq c hc)
        · split at h
          · split at h
            · exact Except.noConfusion h
            · next convs2 heq =>
                injection h with h2
                injection h2 with hs hcv
                subst hcv
                exact parseArrayFormat_retention pds _ convs2 heq
          · split at h
            · exact Except.noConfusion h
            · next convs2 heq =>
                injection h with h2
                injection h2 with hs hcv
                subst hcv
                exact parseArrayFormat_retention pds _ convs2 heq
  · -- doc = .arr []
    split at h
    · exact Except.noConfusion h
    · next convs2 heq =>
        injection h with h2
        injection h2 with hs hcv
        subst hcv
        exact parseArrayFormat_retention pds _ convs2 heq
  · -- other shapes
    split at h
    · exact Except.noConfusion h
    · split at h
      · -- conversations branch
        split at h
        · exact Except.noConfusion h
        · next convs2 heq =>
            injection h with h2
            injection h2 with hs hcv
            subst hcv
            split at heq
            · exact parseArrayFormat_retention pds _ convs2 heq
            · exact Except.noConfusion heq
      · split at h
        · -- chats/history Takeout branch
          split at h
          · exact Except.noConfusion h
          · next convs2 heq =>
              injection h with h2
              injection h2 with hs hcv
              subst hcv
              intro c hc
              exact Or.inl (parseTakeoutFormat_retention pds _ convs2 heq c hc)
        · split at h
          · -- single-conversation branch
            split at h
            · exact Except.noConfusion h
            · next convs2 heq =>
                injection h with h2
                injection h2 with hs hcv
                subst hcv
                intro c hc
                exact Or.inl (parseSingleConversation_retention pds _ convs2 heq c hc)
          · split at h
            · -- API contents branch
              split at h
              · exact Except.noConfusion h
              · next convs2 heq =>
                  injection h with h2
                  injection h2 with hs hcv
                  subst hcv
                  intro c hc
                  exact Or.inl (parseApiFormat_retention now _ convs2 heq c hc)
            · -- generic scan
              split at h
              · exact Except.noConfusion h
              · next convs2 heq =>
                  injection h with h2
                  injection h2 with hs hcv
                  subst hcv
                  exact findConversations_retention pds _ convs2 heq

/-- C8 (confirmed): every conversation in parseConversations' output has at
least one message, or carries a truthy title and stems from an array-format
record whose source title is truthy; a record satisfying neither condition
is never retained, on any parsing path. -/
theorem claim8_retention (pds : String → Option Rat) (shx : String → String)
    (now : Rat) (fileName : String) (doc : JValue) (s : SourceKind)
    (convs : List Conversation)
    (h : parseConversations pds shx now fileName doc = .ok (s, convs)) :
    ∀ c ∈ convs, c.messages ≠ [] ∨ (jsTruthy c.title = true ∧
      ∃ i src, parseArrayConv pds i src = .ok (some c) ∧
               jsTruthy (jsGetD src "title") = true) := by
  unfold parseConversations at h
  simp only [] at h
  split at h
  · exact Except.noConfusion h
  · next result heq =>
      injection h with h2
      injection h2 with hs hcv
      subst hcv
      exact dispatchFormats_retention pds shx now _ doc result.1 result.2 heq

/-- C8 witness: the retention disjunction instantiated at the conversation
parsed from the concrete activity document docC9 (its message list is
non-empty). -/
theorem claim8_witness :
    convC9.messages ≠ [] ∨ (jsTruthy convC9.title = true ∧
      ∃ i src, parseArrayConv pdsNone i src = .ok (some convC9) ∧
               jsTruthy (jsGetD src "title") = true) :=
  claim8_retention pdsNone shxId 0 "x.json" docC9 SourceKind.gemini [convC9]
    (by rfl) convC9 (by simp)

/-! Claim C1: a sufficient shape condition under which the pipeline cannot
throw. -/

/-- A string-or-falsy field value. -/
def fieldOkStr (v : JValue) : Bool := !jsTruthy v || v.isStr

/-- An array-or-falsy field value. -/
def fieldOkArr (v : JValue) : Bool :=
  !jsTruthy v || (match v with | .arr _ => true | _ => false)

/-- A header may be a string, an array, or falsy. -/
def headerOk (v : JValue) : Bool :=
  !jsTruthy v || (match v with | .str _ => true | .arr _ => true | _ => false)

/-- Not the JSON null (JS null/undefined). -/
def nonNull (v : JValue) : Bool := match v with | .null => false | _ => true

/-- A mapping field value must be an object with non-null node values, or
falsy. -/
def mappingValsOk (v : JValue) : Bool :=
  !jsTruthy v ||
  (match v with
   | .obj fs => fs.all (fun kv => nonNull kv.2)
   | _ => false)

/-- Local field conditions on one value under which no property access of
the pipeline can throw on it (read through jsGetD, so duplicate keys
constrain their first occurrence, exactly the one the code reads). -/
def objFieldConds (o : JValue) : Bool :=
  fieldOkStr (jsGetD o "role") && fieldOkStr (jsGetD o "sender") &&
  fieldOkStr (jsGetD o "from") && fieldOkStr (jsGetD o "text") &&
  fieldOkStr (jsGetD o "title") && fieldOkStr (jsGetD o "html") &&
  fieldOkArr (jsGetD o "parts") && fieldOkArr (jsGetD o "messages") &&
  fieldOkArr (jsGetD o "contents") && fieldOkArr (jsGetD o "turns") &&
  fieldOkArr (jsGetD o "conversations") && fieldOkArr (jsGetD o "safeHtmlItem") &&
  headerOk (jsGetD o "header") && mappingValsOk (jsGetD o "mapping")

mutual
/-- Recursive shape safety: every object in the tree satisfies the local
field conditions and every array has non-null elements. -/
def safeVal : JValue → Bool
  | .obj fs => objFieldConds (.obj fs) && safeFieldVals fs
  | .arr xs => safeElems xs
  | _ => true

/-- Array elements: non-null and recursively safe. -/
def safeElems : List JValue → Bool
  | [] => true
  | x :: xs => nonNull x && safeVal x && safeElems xs

/-- Object field values: recursively safe. -/
def safeFieldVals : List (String × JValue) → Bool
  | [] => true
  | kv :: fs => safeVal kv.2 && safeFieldVals fs
end

/-- Top-level shape conditions: the document is not null, and an object
document routed to the single-conversation parser by a truthy `content`
(with falsy `messages`) must carry that content as an array. -/
def topShapeOk (doc : JValue) : Bool :=
  nonNull doc &&
  (match doc with
   | .obj _ =>
       if !jsTruthy (jsGetD doc "messages") && jsTruthy (jsGetD doc "content") then
         (match jsGetD doc "content" with | .arr _ => true | _ => false)
       else true
   | _ => true)

/-- The safe-document predicate of the amended C1. -/
def safeDoc (doc : JValue) : Bool := safeVal doc && topShapeOk doc

theorem jsGetD_arr_named (xs : List JValue) (k : String) (hk : ¬(k = "length"))
    (hn : strToNat? k = none) : jsGetD (.arr xs) k = .null := by
  simp only [jsGetD]
  rw [if_neg hk, hn]

theorem jsGetD_str_named (s : String) (k : String) (hk : ¬(k = "length"))
    (hn : strToNat? k = none) : jsGetD (.str s) k = .null := by
  simp only [jsGetD]
  rw [if_neg hk, hn]

set_option maxHeartbeats 1000000 in
theorem safe_conds (v : JValue) (h : safeVal v = true) : objFieldConds v = true := by
  cases v with
  | obj fs =>
      simp only [safeVal, Bool.and_eq_true] at h
      exact h.1
  | arr xs =>
      unfold objFieldConds
      rw [jsGetD_arr_named xs "role" (by decide) rfl,
          jsGetD_arr_named xs "sender" (by decide) rfl,
          jsGetD_arr_named xs "from" (by decide) rfl,
          jsGetD_arr_named xs "text" (by decide) rfl,
          jsGetD_arr_named xs "title" (by decide) rfl,
          jsGetD_arr_named xs "html" (by decide) rfl,
          jsGetD_arr_named xs "parts" (by decide) rfl,
          jsGetD_arr_named xs "messages" (by decide) rfl,
          jsGetD_arr_named xs "contents" (by decide) rfl,
          jsGetD_arr_named xs "turns" (by decide) rfl,
          jsGetD_arr_named xs "conversations" (by decide) rfl,
          jsGetD_arr_named xs "safeHtmlItem" (by decide) rfl,
          jsGetD_arr_named xs "header" (by decide) rfl,
          jsGetD_arr_named xs "mapping" (by decide) rfl]
      rfl
  | str s =>
      unfold objFieldConds
      rw [jsGetD_str_named s "role" (by decide) rfl,
          jsGetD_str_named s "sender" (by decide) rfl,
          jsGetD_str_named s "from" (by decide) rfl,
          jsGetD_str_named s "text" (by decide) rfl,
          jsGetD_str_named s "title" (by decide) rfl,
          jsGetD_str_named s "html" (by decide) rfl,
          jsGetD_str_named s "parts" (by decide) rfl,
          jsGetD_str_named s "messages" (by decide) rfl,
          jsGetD_str_named s "contents" (by decide) rfl,
          jsGetD_str_named s "turns" (by decide) rfl,
          jsGetD_str_named s "conversations" (by decide) rfl,
          jsGetD_str_named s "safeHtmlItem" (by decide) rfl,
          jsGetD_str_named s "header" (by decide) rfl,
          jsGetD_str_named s "mapping" (by decide) rfl]
      rfl
  | null => rfl
  | bool b => rfl
  | num q => rfl

theorem objFieldConds_split (v : JValue) (h : objFieldConds v = true) :
    fieldOkStr (jsGetD v "role") = true ∧ fieldOkStr (jsGetD v "sender") = true ∧
    fieldOkStr (jsGetD v "from") = true ∧ fieldOkStr (jsGetD v "text") = true ∧
    fieldOkStr (jsGetD v "title") = true ∧ fieldOkStr (jsGetD v "html") = true ∧
    fieldOkArr (jsGetD v "parts") = true ∧ fieldOkArr (jsGetD v "messages") = true ∧
    fieldOkArr (jsGetD v "contents") = true ∧ fieldOkArr (jsGetD v "turns") = true ∧
    fieldOkArr (jsGetD v "conversations") = true ∧
    fieldOkArr (jsGetD v "safeHtmlItem") = true ∧
    headerOk (jsGetD v "header") = true ∧ mappingValsOk (jsGetD v "mapping") = true := by
  unfold objFieldConds at h
  simp only [Bool.and_eq_true] at h
  obtain ⟨⟨⟨⟨⟨⟨⟨⟨⟨⟨⟨⟨⟨h1, h2⟩, h3⟩, h4⟩, h5⟩, h6⟩, h7⟩, h8⟩, h9⟩, h10⟩, h11⟩,
    h12⟩, h13⟩, h14⟩ := h
  exact ⟨h1, h2, h3, h4, h5, h6, h7, h8, h9, h10, h11, h12, h13, h14⟩

theorem safeElems_mem (xs : List JValue) (h : safeElems xs = true) (x : JValue)
    (hx : x ∈ xs) : nonNull x = true ∧ safeVal x = true := by
  induction xs with
  | nil => cases hx
  | cons y ys ih =>
      simp only [safeElems, Bool.and_eq_true] at h
      obtain ⟨⟨hn1, hs1⟩, hrest⟩ := h
      rcases List.mem_cons.mp hx with rfl | hx2
      · exact ⟨hn1, hs1⟩
      · exact ih hrest hx2

theorem safeFieldVals_mem (fs : List (String × JValue)) (h : safeFieldVals fs = true)
    (w : JValue) (hw : w ∈ fs.map Prod.snd) : safeVal w = true := by
  induction fs with
  | nil => cases hw
  | cons kv rest ih =>
      simp only [safeFieldVals, Bool.and_eq_true] at h
      rcases List.mem_cons.mp hw with rfl | hw2
      · exact h.1
      · exact ih h.2 hw2

theorem lookup_mem_snd {β} (fs : List (String × β)) (k : String) (w : β)
    (h : fs.lookup k = some w) : w ∈ fs.map Prod.snd := by
  induction fs with
  | nil => simp [List.lookup] at h
  | cons a rest ih =>
      obtain ⟨a1, a2⟩ := a
      cases hk : (k == a1) with
      | true =>
          simp only [List.lookup, hk] at h
          injection h with h2
          subst h2
          simp
      | false =>
          simp only [List.lookup, hk] at h
          simp only [List.map_cons, List.mem_cons]
          exact Or.inr (ih h)

theorem lookup_of_mem_keys {β} (fs : List (String × β)) (k : String)
    (h : k ∈ fs.map Prod.fst) : ∃ w, fs.lookup k = some w := by
  induction fs with
  | nil => cases h
  | cons a rest ih =>
      obtain ⟨a1, a2⟩ := a
      cases hk : (k == a1) with
      | true => exact ⟨a2, by simp [List.lookup, hk]⟩
      | false =>
          simp only [List.map_cons, List.mem_cons] at h
          rcases h with rfl | h2
          · rw [beq_self_eq_true] at hk
            exact Bool.noConfusion hk
          · obtain ⟨w, hw⟩ := ih h2
            exact ⟨w, by simp [List.lookup, hk, hw]⟩

theorem safeVal_get (v : JValue) (k : String) (h : safeVal v = true) :
    safeVal (jsGetD v k) = true := by
  cases v with
  | obj fs =>
      simp only [jsGetD]
      cases hl : fs.lookup k with
      | none => rfl
      | some w =>
          simp only [safeVal, Bool.and_eq_true] at h
          exact safeFieldVals_mem fs h.2 w (lookup_mem_snd fs k w hl)
  | arr xs =>
      simp only [jsGetD]
      by_cases hk : k = "length"
      · rw [if_pos hk]
        rfl
      · rw [if_neg hk]
        cases hn : strToNat? k with
        | none => rfl
        | some n =>
            simp only []
            by_cases hts : toString n = k
            · rw [if_pos hts]
              cases hg : xs.get? n with
              | none =>
                  rw [List.getD_eq_default]
                  · rfl
                  · exact List.get?_eq_none.mp hg
              | some x =>
                  have hx : x ∈ xs := List.get?_mem hg
                  have hlt : n < xs.length := (List.get?_eq_some.mp hg).1
                  rw [List.getD_eq_get?, hg]
                  exact (safeElems_mem xs h x hx).2
            · rw [if_neg hts]
              rfl
  | str s =>
      simp only [jsGetD]
      by_cases hk : k = "length"
      · rw [if_pos hk]
        rfl
      · rw [if_neg hk]
        cases hn : strToNat? k with
        | none => rfl
        | some n =>
            simp only []
            by_cases hts : toString n = k
            · rw [if_pos hts]
              cases hg : s.data.get? n with
              | none => rfl
              | some c => rfl
            · rw [if_neg hts]
              rfl
  | null => rfl
  | bool b => rfl
  | num q => rfl

theorem firstTruthy_cases (vs : List JValue) :
    firstTruthy vs = .null ∨
    (firstTruthy vs ∈ vs ∧ jsTruthy (firstTruthy vs) = true) := by
  induction vs with
  | nil => exact Or.inl rfl
  | cons v rest ih =>
      simp only [firstTruthy]
      by_cases hv : jsTruthy v = true
      · rw [if_pos hv]
        exact Or.inr ⟨List.mem_cons_self v rest, hv⟩
      · rw [if_neg hv]
        rcases ih with h | ⟨hm, ht⟩
        · exact Or.inl h
        · exact Or.inr ⟨List.mem_cons_of_mem v hm, ht⟩

theorem joinContentParts_isOk (l : List JValue)
    (h : ∀ x ∈ l, nonNull x = true) : ∃ r, joinContentParts l = .ok r := by
  induction l with
  | nil => exact ⟨[], rfl⟩
  | cons p ps ih =>
      obtain ⟨r, hr⟩ := ih (fun x hx => h x (List.mem_cons_of_mem p hx))
      have hp := h p (List.mem_cons_self p ps)
      cases p with
      | null => simp [nonNull] at hp
      | bool b =>
          simp only [joinContentParts]
          rw [hr]
          simp only []
          split
          · exact ⟨_, rfl⟩
          · exact ⟨_, rfl⟩
      | num q =>
          simp only [joinContentParts]
          rw [hr]
          simp only []
          split
          · exact ⟨_, rfl⟩
          · exact ⟨_, rfl⟩
      | str s =>
          simp only [joinContentParts]
          rw [hr]
          simp only []
          split
          · exact ⟨_, rfl⟩
          · exact ⟨_, rfl⟩
      | arr xs =>
          simp only [joinContentParts]
          rw [hr]
          simp only []
          split
          · exact ⟨_, rfl⟩
          · exact ⟨_, rfl⟩
      | obj fs =>
          simp only [joinContentParts]
          rw [hr]
          simp only []
          split
          · exact ⟨_, rfl⟩
          · exact ⟨_, rfl⟩

theorem joinTopParts_isOk (l : List JValue)
    (h : ∀ x ∈ l, nonNull x = true) : ∃ r, joinTopParts l = .ok r := by
  induction l with
  | nil => exact ⟨[], rfl⟩
  | cons p ps ih =>
      obtain ⟨r, hr⟩ := ih (fun x hx => h x (List.mem_cons_of_mem p hx))
      have hp := h p (List.mem_cons_self p ps)
      cases p with
      | null => simp [nonNull] at hp
      | bool b =>
          simp only [joinTopParts]
          rw [hr]
          simp only []
          split
          · exact ⟨_, rfl⟩
          · exact ⟨_, rfl⟩
      | num q =>
          simp only [joinTopParts]
          rw [hr]
          simp only []
          split
          · exact ⟨_, rfl⟩
          · exact ⟨_, rfl⟩
      | str s =>
          simp only [joinTopParts]
          rw [hr]
          simp only []
          split
          · exact ⟨_, rfl⟩
          · exact ⟨_, rfl⟩
      | arr xs =>
          simp only [joinTopParts]
          rw [hr]
          simp only []
          split
          · exact ⟨_, rfl⟩
          · exact ⟨_, rfl⟩
      | obj fs =>
          simp only [joinTopParts]
          rw [hr]
          simp only []
          split
          · exact ⟨_, rfl⟩
          · exact ⟨_, rfl⟩

theorem contentBranch_isOk (c : JValue) (hsafe : safeVal c = true) :
    ∃ s, (if jsTruthy (jsGetD c "parts") then
            match jsGetD c "parts" with
            | JValue.arr l =>
                (match joinContentParts l with
                 | .error err => .error err
                 | .ok parts => .ok (JValue.str (String.intercalate "\n" parts)))
            | _ => .error ()
          else if jsTruthy (jsGetD c "text") then .ok (jsGetD c "text")
          else .ok (JValue.str "")) = Except.ok (JValue.str s) := by
  by_cases hp : jsTruthy (jsGetD c "parts") = true
  · rw [if_pos hp]
    have harr := (objFieldConds_split c (safe_conds c hsafe)).2.2.2.2.2.2.1
    have harr2 : (match jsGetD c "parts" with
        | JValue.arr _ => true | _ => false) = true := by
      unfold fieldOkArr at harr
      rw [hp] at harr
      simpa using harr
    cases hpa : jsGetD c "parts" with
    | arr l =>
        have hsl : safeElems l = true := by
          have hv := safeVal_get c "parts" hsafe
          rw [hpa] at hv
          simpa [safeVal] using hv
        obtain ⟨r, hr⟩ := joinContentParts_isOk l (fun x hx => (safeElems_mem l hsl x hx).1)
        simp only []
        rw [hr]
        exact ⟨_, rfl⟩
    | null => rw [hpa] at harr2; simp at harr2
    | bool b => rw [hpa] at harr2; simp at harr2
    | num q => rw [hpa] at harr2; simp at harr2
    | str s => rw [hpa] at harr2; simp at harr2
    | obj fs => rw [hpa] at harr2; simp at harr2
  · rw [if_neg hp]
    by_cases ht : jsTruthy (jsGetD c "text") = true
    · rw [if_pos ht]
      have hstr := (objFieldConds_split c (safe_conds c hsafe)).2.2.2.1
      unfold fieldOkStr at hstr
      rw [ht] at hstr
      simp only [Bool.not_true, Bool.false_or] at hstr
      cases hts : jsGetD c "text" with
      | str s => exact ⟨s, rfl⟩
      | null => rw [hts] at hstr; simp [JValue.isStr] at hstr
      | bool b => rw [hts] at hstr; simp [JValue.isStr] at hstr
      | num q => rw [hts] at hstr; simp [JValue.isStr] at hstr
      | arr xs => rw [hts] at hstr; simp [JValue.isStr] at hstr
      | obj fs => rw [hts] at hstr; simp [JValue.isStr] at hstr
    · rw [if_neg ht]
      exact ⟨"", rfl⟩

theorem resolveContent_isOk (msg : JValue) (h : safeVal msg = true) :
    ∃ s, resolveContent msg = .ok (.str s) := by
  unfold resolveContent
  by_cases h1 : jsTruthy (jsGetD msg "content") = true
  · rw [if_pos h1]
    cases hc : jsGetD msg "content" with
    | str s => exact ⟨s, rfl⟩
    | null => rw [hc] at h1; simp [jsTruthy] at h1
    | bool b => exact contentBranch_isOk (.bool b) rfl
    | num q => exact contentBranch_isOk (.num q) rfl
    | arr xs =>
        have hv := safeVal_get msg "content" h
        rw [hc] at hv
        exact contentBranch_isOk (.arr xs) hv
    | obj fs =>
        have hv := safeVal_get msg "content" h
        rw [hc] at hv
        exact contentBranch_isOk (.obj fs) hv
  · rw [if_neg h1]
    by_cases h2 : jsTruthy (jsGetD msg "parts") = true
    · rw [if_pos h2]
      have harr := (objFieldConds_split msg (safe_conds msg h)).2.2.2.2.2.2.1
      have harr2 : (match jsGetD msg "parts" with
          | JValue.arr _ => true | _ => false) = true := by
        unfold fieldOkArr at harr
        rw [h2] at harr
        simpa using harr
      cases hpa : jsGetD msg "parts" with
      | arr l =>
          have hsl : safeElems l = true := by
            have hv := safeVal_get msg "parts" h
            rw [hpa] at hv
            simpa [safeVal] using hv
          obtain ⟨r, hr⟩ := joinTopParts_isOk l (fun x hx => (safeElems_mem l hsl x hx).1)
          simp only []
          rw [hr]
          exact ⟨_, rfl⟩
      | null => rw [hpa] at harr2; simp at harr2
      | bool b => rw [hpa] at harr2; simp at harr2
      | num q => rw [hpa] at harr2; simp at harr2
      | str s => rw [hpa] at harr2; simp at harr2
      | obj fs => rw [hpa] at harr2; simp at harr2
    · rw [if_neg h2]
      by_cases h3 : jsTruthy (jsGetD msg "text") = true
      · rw [if_pos h3]
        have hstr := (objFieldConds_split msg (safe_conds msg h)).2.2.2.1
        unfold fieldOkStr at hstr
        rw [h3] at hstr
        simp only [Bool.not_true, Bool.false_or] at hstr
        cases hts : jsGetD msg "text" with
        | str s => exact ⟨s, rfl⟩
        | null => rw [hts] at hstr; simp [JValue.isStr] at hstr
        | bool b => rw [hts] at hstr; simp [JValue.isStr] at hstr
        | num q => rw [hts] at hstr; simp [JValue.isStr] at hstr
        | arr xs => rw [hts] at hstr; simp [JValue.isStr] at hstr
        | obj fs => rw [hts] at hstr; simp [JValue.isStr] at hstr
      · rw [if_neg h3]
        by_cases h4 : jsTruthy (jsGetD msg "message") = true
        · rw [if_pos h4]
          cases hm : jsGetD msg "message" with
          | str s => exact ⟨s, rfl⟩
          | null => exact ⟨_, rfl⟩
          | bool b => exact ⟨_, rfl⟩
          | num q => exact ⟨_, rfl⟩
          | arr xs => exact ⟨_, rfl⟩
          | obj fs => exact ⟨_, rfl⟩
        · rw [if_neg h4]
          exact ⟨"", rfl⟩

theorem rawRoleValue_isStr (msg : JValue) (h : safeVal msg = true) :
    (rawRoleValue msg).isStr = true := by
  unfold rawRoleValue
  by_cases h1 : jsTruthy (jsGetD msg "role") = true
  · rw [if_pos h1]
    have hc := (objFieldConds_split msg (safe_conds msg h)).1
    unfold fieldOkStr at hc
    rw [h1] at hc
    simpa using hc
  · rw [if_neg h1]
    by_cases h2 : jsTruthy (jsGetD msg "author") = true
    · rw [if_pos h2]
      simp only []
      by_cases h3 : (jsGetD msg "author").isStr = true
      · rw [if_pos h3]
        exact h3
      · rw [if_neg h3]
        by_cases h4 : jsTruthy (jsGetD (jsGetD msg "author") "role") = true
        · rw [if_pos h4]
          have hs := safeVal_get msg "author" h
          have hc := (objFieldConds_split _ (safe_conds _ hs)).1
          unfold fieldOkStr at hc
          rw [h4] at hc
          simpa using hc
        · rw [if_neg h4]
          rfl
    · rw [if_neg h2]
      by_cases h3 : jsTruthy (jsGetD msg "sender") = true
      · rw [if_pos h3]
        have hc := (objFieldConds_split msg (safe_conds msg h)).2.1
        unfold fieldOkStr at hc
        rw [h3] at hc
        simpa using hc
      · rw [if_neg h3]
        by_cases h4 : jsTruthy (jsGetD msg "from") = true
        · rw [if_pos h4]
          have hc := (objFieldConds_split msg (safe_conds msg h)).2.2.1
          unfold fieldOkStr at hc
          rw [h4] at hc
          simpa using hc
        · rw [if_neg h4]
          rfl

theorem resolveRole_isOk (msg : JValue) (h : safeVal msg = true) :
    ∃ r, resolveRole msg = .ok r := by
  have hs := rawRoleValue_isStr msg h
  unfold resolveRole
  cases hr : rawRoleValue msg with
  | str s => exact ⟨_, rfl⟩
  | null => rw [hr] at hs; simp [JValue.isStr] at hs
  | bool b => rw [hr] at hs; simp [JValue.isStr] at hs
  | num q => rw [hr] at hs; simp [JValue.isStr] at hs
  | arr xs => rw [hr] at hs; simp [JValue.isStr] at hs
  | obj fs => rw [hr] at hs; simp [JValue.isStr] at hs

theorem parseMessage_isOk (pds : String → Option Rat) (msg : JValue)
    (h : safeVal msg = true) : ∃ o, parseMessage pds msg = .ok o := by
  unfold parseMessage
  by_cases h0 : jsTruthy msg = true
  · rw [if_neg (by rw [h0]; simp)]
    obtain ⟨role, hrole⟩ := resolveRole_isOk msg h
    obtain ⟨s, hcont⟩ := resolveContent_isOk msg h
    rw [hrole]
    simp only []
    rw [hcont]
    simp only []
    split
    · exact ⟨_, rfl⟩
    · exact ⟨_, rfl⟩
  · have hf : jsTruthy msg = false := by simpa using h0
    rw [if_pos (by rw [hf]; rfl)]
    exact ⟨none, rfl⟩

theorem parseMessageList_isOk (pds : String → Option Rat) (l : List JValue)
    (h : safeElems l = true) : ∃ r, parseMessageList pds l = .ok r := by
  induction l with
  | nil => exact ⟨[], rfl⟩
  | cons x xs ih =>
      simp only [safeElems, Bool.and_eq_true] at h
      obtain ⟨⟨hn1, hs1⟩, hrest⟩ := h
      obtain ⟨o, ho⟩ := parseMessage_isOk pds x hs1
      obtain ⟨r, hr⟩ := ih hrest
      simp only [parseMessageList]
      rw [ho]
      simp only []
      rw [hr]
      exact ⟨_, rfl⟩

theorem spreadGetD_message (v : JValue) : spreadGetD v "message" = jsGetD v "message" := by
  cases v with
  | obj fs => rfl
  | null => rfl
  | bool b => rfl
  | num q => rfl
  | arr xs => rw [jsGetD_arr_named xs "message" (by decide) rfl]; rfl
  | str s => rw [jsGetD_str_named s "message" (by decide) rfl]; rfl

theorem chainNodeOk_of_safe (node : JValue) (h : safeVal node = true) :
    chainNodeOk node = true := by
  unfold chainNodeOk
  by_cases hm : jsTruthy (jsGetD node "message") = true
  · rw [hm]
    simp only [Bool.not_true, Bool.false_or]
    have hmsg : safeVal (jsGetD node "message") = true := safeVal_get node "message" h
    unfold nodeParts
    by_cases hp : jsTruthy (jsGetD (contentOrEmpty (jsGetD node "message")) "parts") = true
    · rw [if_pos hp]
      have hce : safeVal (contentOrEmpty (jsGetD node "message")) = true := by
        unfold contentOrEmpty
        split
        · exact safeVal_get _ "content" hmsg
        · rfl
      have harr := (objFieldConds_split _ (safe_conds _ hce)).2.2.2.2.2.2.1
      unfold fieldOkArr at harr
      rw [hp] at harr
      simp only [Bool.not_true, Bool.false_or] at harr
      cases hpa : jsGetD (contentOrEmpty (jsGetD node "message")) "parts" with
      | arr l => rfl
      | null => rw [hpa] at harr; simp at harr
      | bool b => rw [hpa] at harr; simp at harr
      | num q => rw [hpa] at harr; simp at harr
      | str s => rw [hpa] at harr; simp at harr
      | obj fs => rw [hpa] at harr; simp at harr
    · rw [if_neg hp]
  · have hf : jsTruthy (jsGetD node "message") = false := by simpa using hm
    rw [hf]
    rfl

theorem mappingSafe_of_safe (mapping : JValue) (h : safeVal mapping = true) :
    mappingSafe mapping = true := by
  unfold mappingSafe
  rw [List.all_eq_true]
  intro id hid
  exact chainNodeOk_of_safe _ (safeVal_get mapping id h)

theorem findFirstUserNode_isOk (mapping : JValue) (ids : List String)
    (h : ∀ id ∈ ids, nonNull (jsGetD mapping id) = true) :
    ∃ r, findFirstUserNode mapping ids = .ok r := by
  induction ids with
  | nil => exact ⟨none, rfl⟩
  | cons id rest ih =>
      have h1 := h id (List.mem_cons_self id rest)
      obtain ⟨r, hr⟩ := ih (fun x hx => h x (List.mem_cons_of_mem id hx))
      simp only [findFirstUserNode]
      cases hg : jsGetD mapping id with
      | null => rw [hg] at h1; simp [nonNull] at h1
      | bool b =>
          simp only [jsGetE]
          split
          · exact ⟨_, rfl⟩
          · exact ⟨r, hr⟩
      | num q =>
          simp only [jsGetE]
          split
          · exact ⟨_, rfl⟩
          · exact ⟨r, hr⟩
      | str s =>
          simp only [jsGetE]
          split
          · exact ⟨_, rfl⟩
          · exact ⟨r, hr⟩
      | arr xs =>
          simp only [jsGetE]
          split
          · exact ⟨_, rfl⟩
          · exact ⟨r, hr⟩
      | obj fs =>
          simp only [jsGetE]
          split
          · exact ⟨_, rfl⟩
          · exact ⟨r, hr⟩

theorem extractConversationIdFromMapping_isOk (mapping : JValue)
    (htr : jsTruthy mapping = true) (hvals : mappingValsOk mapping = true) :
    ∃ r, extractConversationIdFromMapping mapping = .ok r := by
  unfold mappingValsOk at hvals
  rw [htr] at hvals
  simp only [Bool.not_true, Bool.false_or] at hvals
  cases mapping with
  | null => simp [jsTruthy] at htr
  | bool b => simp at hvals
  | num q => simp at hvals
  | str s => simp at hvals
  | arr xs => simp at hvals
  | obj fs =>
      have hnn : ∀ id ∈ objKeys (JValue.obj fs), nonNull (jsGetD (JValue.obj fs) id) = true := by
        intro id hid
        obtain ⟨w, hw⟩ := lookup_of_mem_keys fs id (by simpa [objKeys] using hid)
        have hwm : w ∈ fs.map Prod.snd := lookup_mem_snd fs id w hw
        have hwn : nonNull w = true := by
          rw [List.all_eq_true] at hvals
          obtain ⟨kv, hkv, hkv2⟩ := List.mem_map.mp hwm
          have hx := hvals kv hkv
          rw [hkv2] at hx
          exact hx
        simp only [jsGetD]
        rw [hw]
        exact hwn
      obtain ⟨r, hr⟩ := findFirstUserNode_isOk (.obj fs) (objKeys (.obj fs)) hnn
      unfold extractConversationIdFromMapping
      simp only []
      rw [hr]
      cases r with
      | some id => exact ⟨_, rfl⟩
      | none =>
          simp only []
          split
          · exact ⟨_, rfl⟩
          · exact ⟨_, rfl⟩

theorem mem_insertByKey (x y : JValue) (l : List JValue)
    (h : y ∈ insertByKey x l) : y = x ∨ y ∈ l := by
  induction l with
  | nil => exact Or.inl (by simpa [insertByKey] using h)
  | cons z zs ih =>
      simp only [insertByKey] at h
      split at h
      · rcases List.mem_cons.mp h with rfl | h2
        · exact Or.inr (List.mem_cons_self y zs)
        · rcases ih h2 with h3 | h3
          · exact Or.inl h3
          · exact Or.inr (List.mem_cons_of_mem z h3)
      · rcases List.mem_cons.mp h with rfl | h2
        · exact Or.inl rfl
        · exact Or.inr h2

theorem mem_sortByKey (y : JValue) (l : List JValue)
    (h : y ∈ sortByKey l) : y ∈ l := by
  induction l with
  | nil => simpa [sortByKey] using h
  | cons x xs ih =>
      simp only [sortByKey] at h
      rcases mem_insertByKey x y (sortByKey xs) h with rfl | h2
      · exact List.mem_cons_self y xs
      · exact List.mem_cons_of_mem x (ih h2)

theorem fallbackContent_isOk (msg : JValue) (h : safeVal msg = true) :
    ∃ r, fallbackContent msg = .ok r := by
  unfold fallbackContent
  by_cases hp : jsTruthy (jsGetD (jsGetD msg "content") "parts") = true
  · rw [if_pos hp]
    have hc : safeVal (jsGetD msg "content") = true := safeVal_get msg "content" h
    have harr := (objFieldConds_split _ (safe_conds _ hc)).2.2.2.2.2.2.1
    unfold fieldOkArr at harr
    rw [hp] at harr
    simp only [Bool.not_true, Bool.false_or] at harr
    cases hpa : jsGetD (jsGetD msg "content") "parts" with
    | arr l => exact ⟨_, rfl⟩
    | null => rw [hpa] at harr; simp at harr
    | bool b => rw [hpa] at harr; simp at harr
    | num q => rw [hpa] at harr; simp at harr
    | str s => rw [hpa] at harr; simp at harr
    | obj fs => rw [hpa] at harr; simp at harr
  · rw [if_neg hp]
    cases hcc : jsGetD msg "content" with
    | str s => exact ⟨s, rfl⟩
    | null => exact ⟨"", rfl⟩
    | bool b => exact ⟨"", rfl⟩
    | num q => exact ⟨"", rfl⟩
    | arr xs => exact ⟨"", rfl⟩
    | obj fs => exact ⟨"", rfl⟩

theorem fallbackNodeMsg_isOk (pds : String → Option Rat) (n : JValue)
    (h : safeVal n = true) : ∃ o, fallbackNodeMsg pds n = .ok o := by
  unfold fallbackNodeMsg
  split
  · have hm : safeVal (spreadGetD n "message") = true := by
      rw [spreadGetD_message]
      exact safeVal_get n "message" h
    obtain ⟨r, hr⟩ := fallbackContent_isOk _ hm
    rw [hr]
    simp only []
    split
    · exact ⟨_, rfl⟩
    · exact ⟨none, rfl⟩
  · exact ⟨none, rfl⟩

theorem fallbackLoop_isOk (pds : String → Option Rat) (ns : List JValue)
    (h : ∀ n ∈ ns, safeVal n = true) :
    ∀ acc, ∃ r, fallbackLoop pds ns acc = .ok r := by
  induction ns with
  | nil => intro acc; exact ⟨acc, rfl⟩
  | cons n rest ih =>
      intro acc
      obtain ⟨o, ho⟩ := fallbackNodeMsg_isOk pds n (h n (List.mem_cons_self n rest))
      simp only [fallbackLoop]
      rw [ho]
      cases o with
      | some m => exact ih (fun x hx => h x (List.mem_cons_of_mem n hx)) (acc ++ [m])
      | none => exact ih (fun x hx => h x (List.mem_cons_of_mem n hx)) acc

theorem fallbackMessages_isOk (pds : String → Option Rat) (mapping : JValue)
    (h : safeVal mapping = true) : ∃ r, fallbackMessages pds mapping = .ok r := by
  unfold fallbackMessages
  refine fallbackLoop_isOk pds _ ?_ []
  intro n hn
  have hn2 := mem_sortByKey n _ hn
  have hn3 := (List.mem_filter.mp hn2).1
  obtain ⟨id, hid, hideq⟩ := List.mem_map.mp hn3
  rw [← hideq]
  exact safeVal_get mapping id h

theorem parseMapping_isOk (pds : String → Option Rat) (mapping cur : JValue)
    (h : safeVal mapping = true) : ∃ l, parseMapping pds mapping cur = .ok l := by
  unfold parseMapping
  by_cases hleaf : (jsTruthy cur && jsTruthy (jsGetD mapping (jsPropKey cur))) = true
  · rw [if_pos hleaf]
    obtain ⟨l, hl, hb⟩ := walkChain_top_bound pds mapping cur (mappingSafe_of_safe mapping h)
    rw [hl]
    exact ⟨_, rfl⟩
  · rw [if_neg hleaf]
    exact fallbackMessages_isOk pds mapping h

theorem jsGetE_ok (v : JValue) (k : String) (h : nonNull v = true) :
    jsGetE v k = .ok (jsGetD v k) := by
  cases v with
  | null => simp [nonNull] at h
  | bool b => rfl
  | num q => rfl
  | str s => rfl
  | arr xs => rfl
  | obj fs => rfl

theorem resolveConversationId_isOk (conv idField : JValue) (h : safeVal conv = true) :
    ∃ r, resolveConversationId conv idField = .ok r := by
  unfold resolveConversationId
  simp only []
  split
  all_goals split
  · next hcond =>
      have h2 := hcond
      simp only [Bool.and_eq_true] at h2
      have hvals := (objFieldConds_split conv (safe_conds conv h)).2.2.2.2.2.2.2.2.2.2.2.2.2
      exact extractConversationIdFromMapping_isOk _ h2.2 hvals
  · exact ⟨_, rfl⟩
  · next hcond =>
      have h2 := hcond
      simp only [Bool.and_eq_true] at h2
      have hvals := (objFieldConds_split conv (safe_conds conv h)).2.2.2.2.2.2.2.2.2.2.2.2.2
      exact extractConversationIdFromMapping_isOk _ h2.2 hvals
  · exact ⟨_, rfl⟩

theorem firstTruthy_arrOk (vs : List JValue)
    (hA : ∀ v ∈ vs, fieldOkArr v = true)
    (hS : ∀ v ∈ vs, safeVal v = true) :
    firstTruthy vs = .null ∨
    ∃ l, firstTruthy vs = .arr l ∧ safeElems l = true := by
  rcases firstTruthy_cases vs with h | ⟨hm, ht⟩
  · exact Or.inl h
  · have hA2 := hA _ hm
    unfold fieldOkArr at hA2
    rw [ht] at hA2
    simp only [Bool.not_true, Bool.false_or] at hA2
    cases hft : firstTruthy vs with
    | arr l =>
        refine Or.inr ⟨l, rfl, ?_⟩
        have hsv := hS _ hm
        rw [hft] at hsv
        simpa [safeVal] using hsv
    | null => rw [hft] at hA2; simp at hA2
    | bool b => rw [hft] at hA2; simp at hA2
    | num q => rw [hft] at hA2; simp at hA2
    | str s => rw [hft] at hA2; simp at hA2
    | obj fs => rw [hft] at hA2; simp at hA2

theorem parseArrayConv_isOk (pds : String → Option Rat) (i : Nat) (conv : JValue)
    (hnn : nonNull conv = true) (h : safeVal conv = true) :
    ∃ r, parseArrayConv pds i conv = .ok r := by
  unfold parseArrayConv
  rw [jsGetE_ok conv "id" hnn]
  simp only []
  obtain ⟨cid, hcid⟩ := resolveConversationId_isOk conv (jsGetD conv "id") h
  rw [hcid]
  simp only []
  split
  · obtain ⟨msgs, hmsgs⟩ := parseMapping_isOk pds _ _ (safeVal_get conv "mapping" h)
    rw [hmsgs]
    exact ⟨_, rfl⟩
  · have hA : ∀ v ∈ [jsGetD conv "messages", jsGetD conv "mapping",
        jsGetD conv "content", jsGetD conv "history"], fieldOkArr v = true ∨ True := by
      intro v hv
      exact Or.inr trivial
    rcases hft : firstTruthy [jsGetD conv "messages", jsGetD conv "mapping",
        jsGetD conv "content", jsGetD conv "history"] with _ | b | q | s | l | fs
    · exact ⟨_, rfl⟩
    · exact ⟨_, rfl⟩
    · exact ⟨_, rfl⟩
    · exact ⟨_, rfl⟩
    · have hsl : safeElems l = true := by
        rcases firstTruthy_cases [jsGetD conv "messages", jsGetD conv "mapping",
            jsGetD conv "content", jsGetD conv "history"] with hnull | ⟨hmem, htr⟩
        · rw [hft] at hnull
          exact JValue.noConfusion hnull
        · rw [hft] at hmem
          simp only [List.mem_cons, List.not_mem_nil, or_false] at hmem
          have hsv : safeVal (JValue.arr l) = true := by
            rcases hmem with he | he | he | he
            all_goals rw [he]
            · exact safeVal_get conv "messages" h
            · exact safeVal_get conv "mapping" h
            · exact safeVal_get conv "content" h
            · exact safeVal_get conv "history" h
          simpa [safeVal] using hsv
      obtain ⟨msgs, hmsgs⟩ := parseMessageList_isOk pds l hsl
      simp only []
      rw [hmsgs]
      exact ⟨_, rfl⟩
    · exact ⟨_, rfl⟩

theorem parseArrayFormatFrom_isOk (pds : String → Option Rat) :
    ∀ (l : List JValue) (i : Nat), safeElems l = true →
      ∃ r, parseArrayFormatFrom pds i l = .ok r := by
  intro l
  induction l with
  | nil => intro i h; exact ⟨[], rfl⟩
  | cons x rest ih =>
      intro i h
      simp only [safeElems, Bool.and_eq_true] at h
      obtain ⟨⟨hn1, hs1⟩, hrest⟩ := h
      obtain ⟨r, hr⟩ := parseArrayConv_isOk pds i x hn1 hs1
      obtain ⟨rs, hrs⟩ := ih (i + 1) hrest
      simp only [parseArrayFormatFrom]
      rw [hr]
      simp only []
      rw [hrs]
      exact ⟨_, rfl⟩

theorem parseArrayFormat_isOk (pds : String → Option Rat) (l : List JValue)
    (h : safeElems l = true) : ∃ r, parseArrayFormat pds l = .ok r :=
  parseArrayFormatFrom_isOk pds l 0 h

theorem parseTakeoutChat_isOk (pds : String → Option Rat) (i : Nat) (chat : JValue)
    (hnn : nonNull chat = true) (h : safeVal chat = true) :
    ∃ r, parseTakeoutChat pds i chat = .ok r := by
  unfold parseTakeoutChat
  rw [jsGetE_ok chat "id" hnn]
  simp only []
  have hconds := objFieldConds_split chat (safe_conds chat h)
  have hA : ∀ v ∈ [jsGetD chat "messages", jsGetD chat "contents", jsGetD chat "turns"],
      fieldOkArr v = true := by
    intro v hv
    simp only [List.mem_cons, List.not_mem_nil, or_false] at hv
    rcases hv with rfl | rfl | rfl
    · exact hconds.2.2.2.2.2.2.2.1
    · exact hconds.2.2.2.2.2.2.2.2.1
    · exact hconds.2.2.2.2.2.2.2.2.2.1
  have hS : ∀ v ∈ [jsGetD chat "messages", jsGetD chat "contents", jsGetD chat "turns"],
      safeVal v = true := by
    intro v hv
    simp only [List.mem_cons, List.not_mem_nil, or_false] at hv
    rcases hv with rfl | rfl | rfl
    · exact safeVal_get chat "messages" h
    · exact safeVal_get chat "contents" h
    · exact safeVal_get chat "turns" h
  rcases firstTruthy_arrOk _ hA hS with hnull | ⟨l, harr, hsl⟩
  · rw [hnull]
    exact ⟨_, rfl⟩
  · rw [harr]
    obtain ⟨msgs, hmsgs⟩ := parseMessageList_isOk pds l hsl
    simp only []
    rw [hmsgs]
    exact ⟨_, rfl⟩

theorem parseTakeoutFrom_isOk (pds : String → Option Rat) :
    ∀ (l : List JValue) (i : Nat), safeElems l = true →
      ∃ r, parseTakeoutFrom pds i l = .ok r := by
  intro l
  induction l with
  | nil => intro i h; exact ⟨[], rfl⟩
  | cons x rest ih =>
      intro i h
      simp only [safeElems, Bool.and_eq_true] at h
      obtain ⟨⟨hn1, hs1⟩, hrest⟩ := h
      obtain ⟨r, hr⟩ := parseTakeoutChat_isOk pds i x hn1 hs1
      obtain ⟨rs, hrs⟩ := ih (i + 1) hrest
      simp only [parseTakeoutFrom]
      rw [hr]
      simp only []
      rw [hrs]
      exact ⟨_, rfl⟩

theorem parseTakeoutFormat_isOk (pds : String → Option Rat) (chats : JValue)
    (h : safeVal chats = true) : ∃ r, parseTakeoutFormat pds chats = .ok r := by
  unfold parseTakeoutFormat
  cases chats with
  | arr l =>
      refine parseTakeoutFrom_isOk pds l 0 ?_
      simpa [safeVal] using h
  | null => exact ⟨[], rfl⟩
  | bool b => exact ⟨[], rfl⟩
  | num q => exact ⟨[], rfl⟩
  | str s => exact ⟨[], rfl⟩
  | obj fs => exact ⟨[], rfl⟩

theorem stripHtmlE_isOk (shx : String → String) (v : JValue)
    (h : fieldOkStr v = true) : ∃ r, stripHtmlE shx v = .ok r := by
  unfold stripHtmlE
  by_cases ht : jsTruthy v = true
  · rw [if_neg (by rw [ht]; simp)]
    unfold fieldOkStr at h
    rw [ht] at h
    simp only [Bool.not_true, Bool.false_or] at h
    cases v with
    | str s => exact ⟨_, rfl⟩
    | null => simp [JValue.isStr] at h
    | bool b => simp [JValue.isStr] at h
    | num q => simp [JValue.isStr] at h
    | arr xs => simp [JValue.isStr] at h
    | obj fs => simp [JValue.isStr] at h
  · have hf : jsTruthy v = false := by simpa using ht
    rw [if_pos (by rw [hf]; rfl)]
    exact ⟨"", rfl⟩

theorem activityUserMessage_isOk (titleF : JValue) (h : fieldOkStr titleF = true) :
    ∃ r, activityUserMessage titleF = .ok r := by
  unfold activityUserMessage
  by_cases ht : jsTruthy titleF = true
  · rw [if_pos ht]
    unfold fieldOkStr at h
    rw [ht] at h
    simp only [Bool.not_true, Bool.false_or] at h
    cases titleF with
    | str s => exact ⟨_, rfl⟩
    | null => simp [JValue.isStr] at h
    | bool b => simp [JValue.isStr] at h
    | num q => simp [JValue.isStr] at h
    | arr xs => simp [JValue.isStr] at h
    | obj fs => simp [JValue.isStr] at h
  · rw [if_neg ht]
    exact ⟨"", rfl⟩

theorem activityAiResponse_isOk (shx : String → String) (a : JValue)
    (h : safeVal a = true) : ∃ r, activityAiResponse shx a = .ok r := by
  unfold activityAiResponse
  split
  · next hguard =>
      have h2 := hguard
      simp only [Bool.and_eq_true] at h2
      have harr := (objFieldConds_split a (safe_conds a h)).2.2.2.2.2.2.2.2.2.2.2.1
      unfold fieldOkArr at harr
      rw [h2.1] at harr
      simp only [Bool.not_true, Bool.false_or] at harr
      cases hsv : jsGetD a "safeHtmlItem" with
      | arr xs =>
          rw [hsv] at h2
          cases xs with
          | nil =>
              exfalso
              have := h2.2
              rw [show jsLengthVal (JValue.arr []) = JValue.num 0 from rfl] at this
              simp [jsGtZero] at this
          | cons y ys =>
              have hy : nonNull y = true ∧ safeVal y = true := by
                have hse : safeElems (y :: ys) = true := by
                  have hv := safeVal_get a "safeHtmlItem" h
                  rw [hsv] at hv
                  simpa [safeVal] using hv
                exact safeElems_mem (y :: ys) hse y (List.mem_cons_self y ys)
              have hidx : jsIdx0 (JValue.arr (y :: ys)) = y := rfl
              rw [hidx, jsGetE_ok y "html" hy.1]
              simp only []
              have hhtml := (objFieldConds_split y (safe_conds y hy.2)).2.2.2.2.2.1
              refine stripHtmlE_isOk shx _ ?_
              by_cases hth : jsTruthy (jsGetD y "html") = true
              · rw [if_pos hth]
                exact hhtml
              · rw [if_neg hth]
                rfl
      | null => rw [hsv] at harr; simp at harr
      | bool b => rw [hsv] at harr; simp at harr
      | num q => rw [hsv] at harr; simp at harr
      | str s => rw [hsv] at harr; simp at harr
      | obj fs => rw [hsv] at harr; simp at harr
  · exact ⟨"", rfl⟩

theorem parseActivityEntry_isOk (pds : String → Option Rat) (shx : String → String)
    (i : Nat) (a : JValue) (hnn : nonNull a = true) (h : safeVal a = true) :
    ∃ r, parseActivityEntry pds shx i a = .ok r := by
  unfold parseActivityEntry
  rw [jsGetE_ok a "title" hnn]
  simp only []
  have htc := (objFieldConds_split a (safe_conds a h)).2.2.2.2.1
  obtain ⟨um, hum⟩ := activityUserMessage_isOk _ htc
  rw [hum]
  simp only []
  obtain ⟨ai, hai⟩ := activityAiResponse_isOk shx a h
  rw [hai]
  simp only []
  split
  · exact ⟨_, rfl⟩
  · exact ⟨_, rfl⟩

theorem parseActivityFrom_isOk (pds : String → Option Rat) (shx : String → String) :
    ∀ (l : List JValue) (i : Nat), (∀ x ∈ l, nonNull x = true ∧ safeVal x = true) →
      ∃ r, parseActivityFrom pds shx i l = .ok r := by
  intro l
  induction l with
  | nil => intro i h; exact ⟨[], rfl⟩
  | cons x rest ih =>
      intro i h
      obtain ⟨hn1, hs1⟩ := h x (List.mem_cons_self x rest)
      obtain ⟨r, hr⟩ := parseActivityEntry_isOk pds shx i x hn1 hs1
      obtain ⟨rs, hrs⟩ := ih (i + 1) (fun y hy => h y (List.mem_cons_of_mem x hy))
      simp only [parseActivityFrom]
      rw [hr]
      simp only []
      rw [hrs]
      exact ⟨_, rfl⟩

theorem parseGeminiActivityFormat_isOk (pds : String → Option Rat)
    (shx : String → String) (activities : JValue) (h : safeVal activities = true) :
    ∃ r, parseGeminiActivityFormat pds shx activities = .ok r := by
  unfold parseGeminiActivityFormat
  cases activities with
  | arr l =>
      refine parseActivityFrom_isOk pds shx l.reverse 0 ?_
      intro x hx
      have hse : safeElems l = true := by simpa [safeVal] using h
      exact safeElems_mem l hse x (List.mem_reverse.mp hx)
  | null => exact ⟨[], rfl⟩
  | bool b => exact ⟨[], rfl⟩
  | num q => exact ⟨[], rfl⟩
  | str s => exact ⟨[], rfl⟩
  | obj fs => exact ⟨[], rfl⟩

theorem parseSingleConversation_isOk (pds : String → Option Rat) (data : JValue)
    (hnn : nonNull data = true) (h : safeVal data = true)
    (htop : topShapeOk data = true)
    (hbr : (jsTruthy (jsGetD data "messages") || jsTruthy (jsGetD data "content")) = true) :
    ∃ r, parseSingleConversation pds data = .ok r := by
  unfold parseSingleConversation
  rw [jsGetE_ok data "id" hnn]
  simp only []
  by_cases hm : jsTruthy (jsGetD data "messages") = true
  · have harr := (objFieldConds_split data (safe_conds data h)).2.2.2.2.2.2.2.1
    unfold fieldOkArr at harr
    rw [hm] at harr
    simp only [Bool.not_true, Bool.false_or] at harr
    have hct : firstTruthy [jsGetD data "messages", jsGetD data "content",
        jsGetD data "history"] = jsGetD data "messages" := by
      simp only [firstTruthy]
      rw [if_pos hm]
    rw [hct]
    cases hmv : jsGetD data "messages" with
    | arr l =>
        have hsl : safeElems l = true := by
          have hv := safeVal_get data "messages" h
          rw [hmv] at hv
          simpa [safeVal] using hv
        obtain ⟨msgs, hmsgs⟩ := parseMessageList_isOk pds l hsl
        simp only []
        rw [hmsgs]
        exact ⟨_, rfl⟩
    | null => rw [hmv] at harr; simp at harr
    | bool b => rw [hmv] at harr; simp at harr
    | num q => rw [hmv] at harr; simp at harr
    | str s => rw [hmv] at harr; simp at harr
    | obj fs => rw [hmv] at harr; simp at harr
  · have hmf : jsTruthy (jsGetD data "messages") = false := by simpa using hm
    have hc : jsTruthy (jsGetD data "content") = true := by
      have hbr2 := hbr
      simp only [Bool.or_eq_true] at hbr2
      rcases hbr2 with h1 | h1
      · exact absurd h1 hm
      · exact h1
    have hct : firstTruthy [jsGetD data "messages", jsGetD data "content",
        jsGetD data "history"] = jsGetD data "content" := by
      simp only [firstTruthy]
      rw [if_neg hm, if_pos hc]
    rw [hct]
    cases data with
    | null => simp [nonNull] at hnn
    | bool b =>
        rw [show jsGetD (JValue.bool b) "content" = JValue.null from rfl] at hc
        simp [jsTruthy] at hc
    | num q =>
        rw [show jsGetD (JValue.num q) "content" = JValue.null from rfl] at hc
        simp [jsTruthy] at hc
    | str s =>
        rw [jsGetD_str_named s "content" (by decide) rfl] at hc
        simp [jsTruthy] at hc
    | arr xs =>
        rw [jsGetD_arr_named xs "content" (by decide) rfl] at hc
        simp [jsTruthy] at hc
    | obj fs =>
        have hcarr : (match jsGetD (JValue.obj fs) "content" with
            | JValue.arr _ => true | _ => false) = true := by
          unfold topShapeOk at htop
          simp only [Bool.and_eq_true] at htop
          have h2 := htop.2
          rw [if_pos ⟨by rw [hmf]; rfl, hc⟩] at h2
          exact h2
        cases hcv : jsGetD (JValue.obj fs) "content" with
        | arr l =>
            have hsl : safeElems l = true := by
              have hv := safeVal_get (JValue.obj fs) "content" h
              rw [hcv] at hv
              simpa [safeVal] using hv
            obtain ⟨msgs, hmsgs⟩ := parseMessageList_isOk pds l hsl
            simp only []
            rw [hmsgs]
            exact ⟨_, rfl⟩
        | null => rw [hcv] at hcarr; simp at hcarr
        | bool b => rw [hcv] at hcarr; simp at hcarr
        | num q => rw [hcv] at hcarr; simp at hcarr
        | str s => rw [hcv] at hcarr; simp at hcarr
        | obj fs2 => rw [hcv] at hcarr; simp at hcarr

theorem apiParts_isOk (role : JValue) (ps : List JValue)
    (h : ∀ p ∈ ps, nonNull p = true) : ∃ r, apiParts role ps = .ok r := by
  induction ps with
  | nil => exact ⟨[], rfl⟩
  | cons p rest ih =>
      obtain ⟨r, hr⟩ := ih (fun x hx => h x (List.mem_cons_of_mem p hx))
      simp only [apiParts]
      rw [jsGetE_ok p "text" (h p (List.mem_cons_self p rest))]
      simp only []
      rw [hr]
      simp only []
      split
      · exact ⟨_, rfl⟩
      · exact ⟨_, rfl⟩

theorem apiContents_isOk (l : List JValue) (h : safeElems l = true) :
    ∃ r, apiContents l = .ok r := by
  induction l with
  | nil => exact ⟨[], rfl⟩
  | cons c cs ih =>
      simp only [safeElems, Bool.and_eq_true] at h
      obtain ⟨⟨hn1, hs1⟩, hrest⟩ := h
      obtain ⟨r, hr⟩ := ih hrest
      simp only [apiContents]
      rw [jsGetE_ok c "role" hn1]
      simp only []
      have hinner : ∃ m, (if jsTruthy (jsGetD c "parts") then
          match jsGetD c "parts" with
          | JValue.arr ps => apiParts (if jsTruthy (jsGetD c "role") then jsGetD c "role"
                                       else JValue.str "user") ps
          | _ => Except.error ()
        else Except.ok []) = Except.ok m := by
        by_cases hp : jsTruthy (jsGetD c "parts") = true
        · rw [if_pos hp]
          have harr := (objFieldConds_split c (safe_conds c hs1)).2.2.2.2.2.2.1
          unfold fieldOkArr at harr
          rw [hp] at harr
          simp only [Bool.not_true, Bool.false_or] at harr
          cases hpv : jsGetD c "parts" with
          | arr ps =>
              have hps : ∀ p ∈ ps, nonNull p = true := by
                intro p hpm
                have hv := safeVal_get c "parts" hs1
                rw [hpv] at hv
                exact (safeElems_mem ps (by simpa [safeVal] using hv) p hpm).1
              exact apiParts_isOk _ ps hps
          | null => rw [hpv] at harr; simp at harr
          | bool b => rw [hpv] at harr; simp at harr
          | num q => rw [hpv] at harr; simp at harr
          | str s => rw [hpv] at harr; simp at harr
          | obj fs => rw [hpv] at harr; simp at harr
        · rw [if_neg hp]
          exact ⟨[], rfl⟩
      obtain ⟨m, hinner2⟩ := hinner
      rw [hinner2]
      simp only []
      rw [hr]
      exact ⟨_, rfl⟩

theorem parseApiFormat_isOk (now : Rat) (data : JValue)
    (hnn : nonNull data = true) (h : safeVal data = true)
    (hct : jsTruthy (jsGetD data "contents") = true) :
    ∃ r, parseApiFormat now data = .ok r := by
  unfold parseApiFormat
  rw [jsGetE_ok data "contents" hnn]
  simp only []
  have harr := (objFieldConds_split data (safe_conds data h)).2.2.2.2.2.2.2.2.1
  unfold fieldOkArr at harr
  rw [hct] at harr
  simp only [Bool.not_true, Bool.false_or] at harr
  cases hcv : jsGetD data "contents" with
  | arr l =>
      have hsl : safeElems l = true := by
        have hv := safeVal_get data "contents" h
        rw [hcv] at hv
        simpa [safeVal] using hv
      obtain ⟨msgs, hmsgs⟩ := apiContents_isOk l hsl
      simp only []
      rw [hmsgs]
      exact ⟨_, rfl⟩
  | null => rw [hcv] at harr; simp at harr
  | bool b => rw [hcv] at harr; simp at harr
  | num q => rw [hcv] at harr; simp at harr
  | str s => rw [hcv] at harr; simp at harr
  | obj fs => rw [hcv] at harr; simp at harr

mutual

theorem findConversations_isOk (pds : String → Option Rat) :
    ∀ (v : JValue), safeVal v = true → ∃ r, findConversations pds v = .ok r := by
  intro v
  cases v with
  | arr xs =>
      cases xs with
      | nil =>
          intro h
          exact ⟨[], rfl⟩
      | cons x rest =>
          intro h
          simp only [findConversations]
          split
          · exact parseArrayFormat_isOk pds (x :: rest) (by simpa [safeVal] using h)
          · exact findEntriesArr_isOk pds 0 (x :: rest) (by simpa [safeVal] using h)
  | obj fs =>
      intro h
      simp only [findConversations]
      refine findEntriesObj_isOk pds fs ?_
      simp only [safeVal, Bool.and_eq_true] at h
      exact h.2
  | null => intro h; exact ⟨[], rfl⟩
  | bool b => intro h; exact ⟨[], rfl⟩
  | num q => intro h; exact ⟨[], rfl⟩
  | str s => intro h; exact ⟨[], rfl⟩

theorem findEntriesObj_isOk (pds : String → Option Rat) :
    ∀ (fs : List (String × JValue)), safeFieldVals fs = true →
      ∃ r, findEntriesObj pds fs = .ok r := by
  intro fs
  cases fs with
  | nil =>
      intro h
      exact ⟨[], rfl⟩
  | cons kv rest =>
      obtain ⟨k, v⟩ := kv
      intro h
      simp only [safeFieldVals, Bool.and_eq_true] at h
      obtain ⟨hv, hrest⟩ := h
      have hhit : ∃ hit, (if keyTriggers k = true then
          match v with
          | JValue.arr l => parseArrayFormat pds l
          | _ => Except.ok []
        else Except.ok []) = Except.ok hit := by
        by_cases htr : keyTriggers k = true
        · rw [if_pos htr]
          cases v with
          | arr l => exact parseArrayFormat_isOk pds l (by simpa [safeVal] using hv)
          | null => exact ⟨[], rfl⟩
          | bool b => exact ⟨[], rfl⟩
          | num q => exact ⟨[], rfl⟩
          | str s => exact ⟨[], rfl⟩
          | obj fs2 => exact ⟨[], rfl⟩
        · rw [if_neg htr]
          exact ⟨[], rfl⟩
      obtain ⟨hit, hh⟩ := hhit
      obtain ⟨sub, hs⟩ := findConversations_isOk pds v hv
      obtain ⟨more, hm2⟩ := findEntriesObj_isOk pds rest hrest
      refine ⟨hit ++ sub ++ more, ?_⟩
      simp only [findEntriesObj]
      rw [hh]
      simp only []
      rw [hs]
      simp only []
      rw [hm2]

theorem findEntriesArr_isOk (pds : String → Option Rat) :
    ∀ (i : Nat) (l : List JValue), safeElems l = true →
      ∃ r, findEntriesArr pds i l = .ok r := by
  intro i l
  cases l with
  | nil =>
      intro h
      exact ⟨[], rfl⟩
  | cons v rest =>
      intro h
      simp only [safeElems, Bool.and_eq_true] at h
      obtain ⟨⟨hn1, hv⟩, hrest⟩ := h
      have hhit : ∃ hit, (if keyTriggers (toString i) = true then
          match v with
          | JValue.arr l2 => parseArrayFormat pds l2
          | _ => Except.ok []
        else Except.ok []) = Except.ok hit := by
        by_cases htr : keyTriggers (toString i) = true
        · rw [if_pos htr]
          cases v with
          | arr l2 => exact parseArrayFormat_isOk pds l2 (by simpa [safeVal] using hv)
          | null => exact ⟨[], rfl⟩
          | bool b => exact ⟨[], rfl⟩
          | num q => exact ⟨[], rfl⟩
          | str s => exact ⟨[], rfl⟩
          | obj fs2 => exact ⟨[], rfl⟩
        · rw [if_neg htr]
          exact ⟨[], rfl⟩
      obtain ⟨hit, hh⟩ := hhit
      obtain ⟨sub, hs⟩ := findConversations_isOk pds v hv
      obtain ⟨more, hm2⟩ := findEntriesArr_isOk pds (i + 1) rest hrest
      refine ⟨hit ++ sub ++ more, ?_⟩
      simp only [findEntriesArr]
      rw [hh]
      simp only []
      rw [hs]
      simp only []
      rw [hm2]

end

theorem dispatchFormats_isOk (pds : String → Option Rat) (shx : String → String)
    (now : Rat) (src0 : SourceKind) (doc : JValue)
    (hsafe : safeVal doc = true) (htop : topShapeOk doc = true) :
    ∃ r, dispatchFormats pds shx now src0 doc = .ok r := by
  have hnn : nonNull doc = true := by
    unfold topShapeOk at htop
    simp only [Bool.and_eq_true] at htop
    exact htop.1
  cases doc with
  | null => simp [nonNull] at hnn
  | bool b0 => exact ⟨_, rfl⟩
  | num q => exact ⟨_, rfl⟩
  | str s => exact ⟨_, rfl⟩
  | arr xs =>
      cases xs with
      | nil => exact ⟨_, rfl⟩
      | cons x rest =>
          simp only [dispatchFormats]
          have hse : safeElems (x :: rest) = true := by simpa [safeVal] using hsafe
          have hx := safeElems_mem _ hse x (List.mem_cons_self x rest)
          rw [jsGetE_ok x "header" hx.1]
          simp only []
          have hinner : ∃ b, (if jsTruthy (jsGetD x "header") then
              includesGeminiE (jsGetD x "header") else .ok false) = .ok b := by
            by_cases hth : jsTruthy (jsGetD x "header") = true
            · rw [if_pos hth]
              have hh := (objFieldConds_split x
                (safe_conds x hx.2)).2.2.2.2.2.2.2.2.2.2.2.2.1
              unfold headerOk at hh
              rw [hth] at hh
              simp only [Bool.not_true, Bool.false_or] at hh
              cases hhv : jsGetD x "header" with
              | str s => exact ⟨_, rfl⟩
              | arr ys => exact ⟨_, rfl⟩
              | null => rw [hhv] at hh; simp at hh
              | bool b => rw [hhv] at hh; simp at hh
              | num q => rw [hhv] at hh; simp at hh
              | obj fs => rw [hhv] at hh; simp at hh
            · rw [if_neg hth]
              exact ⟨false, rfl⟩
          obtain ⟨b, hb⟩ := hinner
          rw [hb]
          simp only []
          by_cases hact : b = true
          · subst hact
            rw [if_pos rfl]
            obtain ⟨convs, hconvs⟩ :=
              parseGeminiActivityFormat_isOk pds shx (.arr (x :: rest)) hsafe
            rw [hconvs]
            exact ⟨_, rfl⟩
          · have hbf : b = false := by simpa using hact
            subst hbf
            rw [if_neg (by simp)]
            split
            · obtain ⟨convs, hconvs⟩ := parseArrayFormat_isOk pds (x :: rest) hse
              rw [hconvs]
              exact ⟨_, rfl⟩
            · obtain ⟨convs, hconvs⟩ := parseArrayFormat_isOk pds (x :: rest) hse
              rw [hconvs]
              exact ⟨_, rfl⟩
  | obj fs =>
      simp only [dispatchFormats]
      rw [jsGetE_ok (.obj fs) "conversations" hnn]
      simp only []
      by_cases hcv : jsTruthy (jsGetD (JValue.obj fs) "conversations") = true
      · rw [if_pos hcv]
        have harr := (objFieldConds_split _ (safe_conds _ hsafe)).2.2.2.2.2.2.2.2.2.2.1
        unfold fieldOkArr at harr
        rw [hcv] at harr
        simp only [Bool.not_true, Bool.false_or] at harr
        cases hcc : jsGetD (JValue.obj fs) "conversations" with
        | arr l =>
            have hsl : safeElems l = true := by
              have hv := safeVal_get (JValue.obj fs) "conversations" hsafe
              rw [hcc] at hv
              simpa [safeVal] using hv
            obtain ⟨convs, hconvs⟩ := parseArrayFormat_isOk pds l hsl
            simp only []
            rw [hconvs]
            exact ⟨_, rfl⟩
        | null => rw [hcc] at harr; simp at harr
        | bool b => rw [hcc] at harr; simp at harr
        | num q => rw [hcc] at harr; simp at harr
        | str s => rw [hcc] at harr; simp at harr
        | obj fs2 => rw [hcc] at harr; simp at harr
      · rw [if_neg hcv]
        by_cases hch : (jsTruthy (jsGetD (JValue.obj fs) "chats") ||
            jsTruthy (jsGetD (JValue.obj fs) "history")) = true
        · rw [if_pos hch]
          have harg : safeVal (if jsTruthy (jsGetD (JValue.obj fs) "chats") then
              jsGetD (JValue.obj fs) "chats" else jsGetD (JValue.obj fs) "history") = true := by
            split
            · exact safeVal_get _ "chats" hsafe
            · exact safeVal_get _ "history" hsafe
          obtain ⟨convs, hconvs⟩ := parseTakeoutFormat_isOk pds _ harg
          rw [hconvs]
          exact ⟨_, rfl⟩
        · rw [if_neg hch]
          by_cases hmc : (jsTruthy (jsGetD (JValue.obj fs) "messages") ||
              jsTruthy (jsGetD (JValue.obj fs) "content")) = true
          · rw [if_pos hmc]
            obtain ⟨convs, hconvs⟩ :=
              parseSingleConversation_isOk pds _ hnn hsafe htop hmc
            rw [hconvs]
            exact ⟨_, rfl⟩
          · rw [if_neg hmc]
            by_cases hco : jsTruthy (jsGetD (JValue.obj fs) "contents") = true
            · rw [if_pos hco]
              obtain ⟨convs, hconvs⟩ := parseApiFormat_isOk now _ hnn hsafe hco
              rw [hconvs]
              exact ⟨_, rfl⟩
            · rw [if_neg hco]
              obtain ⟨convs, hconvs⟩ := findConversations_isOk pds _ hsafe
              simp only [parseGenericFormat]
              rw [hconvs]
              exact ⟨_, rfl⟩

/-- C1 (corrected): the pipeline is not total on all structurally-valid
JSON — it can throw — but on every safe document (safeDoc: non-null, the
recursive field-shape conditions, and the single-conversation container
condition) parseConversations terminates normally with a result for every
file name. -/
theorem claim1_amended (pds : String → Option Rat) (shx : String → String)
    (now : Rat) (fileName : String) (doc : JValue) (h : safeDoc doc = true) :
    ∃ r, parseConversations pds shx now fileName doc = .ok r := by
  unfold safeDoc at h
  simp only [Bool.and_eq_true] at h
  obtain ⟨r, hr⟩ := dispatchFormats_isOk pds shx now
    (detectSourceFromFileName fileName) doc h.1 h.2
  unfold parseConversations
  simp only []
  rw [hr]
  exact ⟨_, rfl⟩

/-- A structurally-valid JSON document (an array of one conversation record
whose message has the number 42 as role) on which the pipeline throws:
`role.toLowerCase` is not a function. -/
def docC1 : JValue :=
  .arr [.obj [("messages", .arr [.obj [("role", .num 42), ("content", .str "hi")]])]]

/-- C1 counterexample: parseConversations throws (modelled as `.error ()`)
on the structurally-valid docC1, refuting totality over all
structurally-valid JSON. -/
theorem claim1_counterexample :
    parseConversations pdsNone shxId 0 "f.json" docC1 = .error () := rfl

/-- A safe document: one titled conversation record with one well-formed
message. -/
def docC1good : JValue :=
  .arr [.obj [("title", .str "t"),
              ("messages", .arr [.obj [("role", .str "user"), ("content", .str "hi")]])]]

/-- C1 witness: the safe concrete document satisfies safeDoc and the
pipeline returns normally on it. -/
theorem claim1_witness :
    ∃ r, parseConversations pdsNone shxId 0 "f.json" docC1good = .ok r :=
  claim1_amended pdsNone shxId 0 "f.json" docC1good (by rfl)
